import Mathlib

/-!
Verification of the spartan-schema engine against its specification.

The repository contains two variants of the engine:

* the "root/let/ref" variant (`mod.ts`-style sources: `isSchema`,
  `validateSchemaType`, `typeZeroValue`, ...), embedded below in the
  `Spartan` namespace;
* the earlier class-based variant (`src/schema.ts`: `Schema` subclasses
  with `validate` / `restrict` / `zeroValue` / `hasFixedShape` /
  `atPath`), embedded below in the `Classic` namespace.

JS numbers (IEEE 754 doubles) are modelled as rationals `ℚ`: every schema
operation in the sources uses only equality tests, `Math.floor`, and
`Number.isInteger` on numbers, all of which are exact on doubles and are
faithfully mirrored on `ℚ` (NaN/Infinity do not occur in the claims
below).  `Date` objects are modelled by their epoch-milliseconds value and
`Uint8Array`s by their byte lists.
-/

namespace Spartan

/-- A single step of a JSONPath: an object key or an array index. -/
inductive Step where
  | key : String → Step
  | idx : Nat → Step
deriving DecidableEq, Repr

/-- `PathArray` from `path.ts`: a path into a JSON document. -/
abbrev PathArray := List Step

/-- Scalar literals: the values allowed as `enum` members
(string / number / boolean / null). -/
inductive Prim where
  | nul
  | bool : Bool → Prim
  | num : ℚ → Prim
  | str : String → Prim
deriving DecidableEq, Repr

/-- The generic JSON-like runtime value model: null, booleans, numbers,
strings, `Date`s (epoch ms), `Uint8Array`s (byte lists), arrays, and
plain objects (string-keyed association lists). -/
inductive Value where
  | null
  | bool : Bool → Value
  | num : ℚ → Value
  | str : String → Value
  | date : ℤ → Value
  | binary : List Nat → Value
  | arr : List Value → Value
  | obj : List (String × Value) → Value

/-- First-match association-list lookup, the model of JS property access
`value[k]` on a plain object (JS object keys are unique). -/
def lookupStr {α : Type} : List (String × α) → String → Option α
  | [], _ => none
  | (k, v) :: rest, k' => if k = k' then some v else lookupStr rest k'

/-- The model of the JS `k in value` test on a plain object. -/
def hasKey {α : Type} (kvs : List (String × α)) (k : String) : Bool :=
  (lookupStr kvs k).isSome

/-- The JS value denoted by a scalar literal. -/
def primToValue : Prim → Value
  | .nul => .null
  | .bool b => .bool b
  | .num q => .num q
  | .str s => .str s

/-- Strict equality `===` between a scalar literal and a runtime value. -/
def primEqValue : Prim → Value → Bool
  | .nul, .null => true
  | .bool b, .bool c => b == c
  | .num q, .num r => q == r
  | .str s, .str t => s == t
  | _, _ => false

/-- Approximation of `JSON.stringify` on a string (inner escaping is not
modelled; the result only ever appears inside diagnostic message text). -/
def jsonString (s : String) : String := "\"" ++ s ++ "\""

/-- Approximation of JS number printing (exact for integers; the result
only ever appears inside diagnostic message text). -/
def ratToString (q : ℚ) : String :=
  if q.den = 1 then toString q.num else toString q.num ++ "/" ++ toString q.den

/-- Approximation of `JSON.stringify` on a scalar literal. -/
def jsonPrim : Prim → String
  | .nul => "null"
  | .bool true => "true"
  | .bool false => "false"
  | .num q => ratToString q
  | .str s => jsonString s

/-!
## The "root/let/ref" variant: schema types

`SchemaType` is the Lean rendering of the source's `SchemaType` union
type.  `null` and the string `"null"` are distinct source forms with
identical semantics, kept apart as `nullV` / `nullT`.  An object entry
`(k, opt, t)` renders source `{k: t}` when `opt = false` and
`{k: ["optional", t]}` when `opt = true`.
-/

inductive SchemaType where
  | nullV
  | nullT
  | booleanT
  | integerT
  | floatT
  | numberT
  | stringT
  | dateT
  | binaryT
  | enumT : List Prim → SchemaType
  | tuple : List SchemaType → SchemaType
  | array : List SchemaType → SchemaType
  | dictionary : SchemaType → SchemaType
  | oneof : List SchemaType → SchemaType
  | ref : String → SchemaType
  | object : List (String × Bool × SchemaType) → SchemaType

/-- `ValidationError` from the source: dual paths, a message, and (for
`oneof` failures) one child error list per alternative.  The source
leaves `children` absent on non-`oneof` errors; that is modelled as
`[]`. -/
inductive ValidationError where
  | mk : PathArray → PathArray → String → List (List ValidationError) → ValidationError

def ValidationError.dataPath : ValidationError → PathArray
  | .mk dp _ _ _ => dp

def ValidationError.schemaPath : ValidationError → PathArray
  | .mk _ sp _ _ => sp

def ValidationError.message : ValidationError → String
  | .mk _ _ m _ => m

def ValidationError.children : ValidationError → List (List ValidationError)
  | .mk _ _ _ cs => cs

/-- An error without children, the shape of every non-`oneof` error. -/
def mkVE (dp sp : PathArray) (msg : String) : ValidationError :=
  .mk dp sp msg []

/-- The `enum` failure message from `validateSchemaType`. -/
def enumMsg : List Prim → String
  | [m] => "expected the exact value " ++ jsonPrim m
  | ms => "expected one of " ++ String.intercalate ", " (ms.map jsonPrim)

/-- The `ref` failure message for a label with no `let` definition. -/
def brokenRefMsg (l : String) : String :=
  "broken ref: schema has no let definition named " ++ jsonString l

/-- Element loop of the `tuple` validator: element `i` is checked by the
`i`-th argument type, whose validator was compiled with schema path
`sp ++ [i+1]`.  Only invoked after the length check, so the two lists
always have equal length. -/
def walkTuple (f : SchemaType → PathArray → Value → PathArray → List ValidationError)
    (sp dp : PathArray) : List SchemaType → List Value → Nat → List ValidationError
  | t :: ts, x :: xs, i =>
      f t (sp ++ [.idx (i + 1)]) x (dp ++ [.idx i]) ++ walkTuple f sp dp ts xs (i + 1)
  | _, _, _ => []

/-- Element loop of the `array` validator, covering both source branches:
with a single argument type it is applied to every element (source's
2-element branch); with more, element `i` uses argument
`min i (N-1)` (`predicates[i < predicates.length - 1 ? i : ...]`).
`j` is the index in the argument list of the head of `rem`, used for the
schema path `sp ++ [j+1]`. -/
def walkArray (f : SchemaType → PathArray → Value → PathArray → List ValidationError)
    (sp dp : PathArray) : List SchemaType → Nat → List Value → Nat → List ValidationError
  | _, _, [], _ => []
  | [], _, _ :: _, _ => []
  | [t], j, x :: xs, i =>
      f t (sp ++ [.idx (j + 1)]) x (dp ++ [.idx i]) ++ walkArray f sp dp [t] j xs (i + 1)
  | t :: t2 :: rest, j, x :: xs, i =>
      f t (sp ++ [.idx (j + 1)]) x (dp ++ [.idx i]) ++
        walkArray f sp dp (t2 :: rest) (j + 1) xs (i + 1)

/-- Alternative loop of the `oneof` validator: `none` when some
alternative accepts the value, otherwise the list of every alternative's
failures, in declaration order (`j` numbers alternatives from 1 for the
schema path). -/
def walkOneof (f : SchemaType → PathArray → Value → PathArray → List ValidationError)
    (sp : PathArray) (value : Value) (dp : PathArray) :
    List SchemaType → Nat → Option (List (List ValidationError))
  | [], _ => some []
  | a :: rest, j =>
      let errs := f a (sp ++ [.idx j]) value dp
      if errs.isEmpty then none
      else
        match walkOneof f sp value dp rest (j + 1) with
        | none => none
        | some cs => some (errs :: cs)

/-- Field loop of the object validator: a present key is checked by its
field type at data path `dp ++ [k]`; a missing required key yields a
`missing required field` error at the object's own paths; a missing
optional key yields nothing. -/
def walkFields (f : SchemaType → PathArray → Value → PathArray → List ValidationError)
    (sp dp : PathArray) (kvs : List (String × Value)) :
    List (String × Bool × SchemaType) → List ValidationError
  | [] => []
  | (k, isOpt, t) :: rest =>
      (match lookupStr kvs k with
       | some v => f t (sp ++ [.key k] ++ (if isOpt then [.idx 1] else [])) v (dp ++ [.key k])
       | none =>
           if isOpt then []
           else [mkVE dp sp ("missing required field " ++ jsonString k)]) ++
        walkFields f sp dp kvs rest

/-- Entry loop of the `dictionary` validator: every entry value is
checked by the value type (compiled at schema path `sp ++ [1]`). -/
def walkDict (f : SchemaType → PathArray → Value → PathArray → List ValidationError)
    (sp dp : PathArray) (t : SchemaType) : List (String × Value) → List ValidationError
  | [] => []
  | (k, v) :: rest =>
      f t (sp ++ [.idx 1]) v (dp ++ [.key k]) ++ walkDict f sp dp t rest

/-- `validateSchemaType` from the source, uncurried: the validator
compiled for `schema` with ref validators `refs` and schema path `sp`,
applied to `value` at data path `dp`.

The source's recursion is structural on the schema except through
`ref`, where it re-enters the referenced label's validator; `fuel`
(decremented once per nesting level) makes that recursion total.  Fuel
exhaustion returns a sentinel error that no run in this file reaches:
every theorem below either quantifies over all fuel values or supplies
enough fuel for its concrete input. -/
def validateSchemaType :
    Nat → SchemaType → List (String × SchemaType) → PathArray → Value → PathArray →
      List ValidationError
  | 0, _, _, sp, _, dp => [mkVE dp sp ("modelling fuel exhausted")]
  | fuel + 1, schema, refs, sp, value, dp =>
    match schema with
    | .nullV =>
        match value with
        | .null => []
        | _ => [mkVE dp sp ("expected null")]
    | .nullT =>
        match value with
        | .null => []
        | _ => [mkVE dp sp ("expected null")]
    | .booleanT =>
        match value with
        | .bool _ => []
        | _ => [mkVE dp sp ("expected boolean")]
    | .floatT =>
        match value with
        | .num _ => []
        | _ => [mkVE dp sp ("expected number")]
    | .numberT =>
        match value with
        | .num _ => []
        | _ => [mkVE dp sp ("expected number")]
    | .integerT =>
        match value with
        | .num q => if q.den = 1 then [] else [mkVE dp sp ("expected integer")]
        | _ => [mkVE dp sp ("expected integer")]
    | .stringT =>
        match value with
        | .str _ => []
        | _ => [mkVE dp sp ("expected string")]
    | .dateT =>
        match value with
        | .date _ => []
        | _ => [mkVE dp sp ("expected date")]
    | .binaryT =>
        match value with
        | .binary _ => []
        | _ => [mkVE dp sp ("expected binary")]
    | .enumT ms =>
        if ms.any (fun m => primEqValue m value) then []
        else [mkVE dp sp (enumMsg ms)]
    | .tuple args =>
        match value with
        | .arr xs =>
            if xs.length ≠ args.length then
              [mkVE dp sp ("expected array of exactly " ++ toString args.length ++
                " values, got " ++ toString xs.length)]
            else
              walkTuple (fun t sp1 v dp1 => validateSchemaType fuel t refs sp1 v dp1)
                sp dp args xs 0
        | _ => [mkVE dp sp ("expected array")]
    | .array args =>
        match value with
        | .arr xs =>
            if xs.length + 1 < args.length then
              [mkVE dp sp ("expected array of at least " ++ toString (args.length - 1) ++
                " values, got " ++ toString xs.length)]
            else
              walkArray (fun t sp1 v dp1 => validateSchemaType fuel t refs sp1 v dp1)
                sp dp args 0 xs 0
        | _ => [mkVE dp sp ("expected array")]
    | .dictionary t =>
        match value with
        | .obj kvs =>
            walkDict (fun t1 sp1 v dp1 => validateSchemaType fuel t1 refs sp1 v dp1)
              sp dp t kvs
        | _ => [mkVE dp sp ("expected object")]
    | .oneof alts =>
        match walkOneof (fun t sp1 v dp1 => validateSchemaType fuel t refs sp1 v dp1)
            sp value dp alts 1 with
        | none => []
        | some cs =>
            [.mk dp sp ("all " ++ toString alts.length ++ " options failed") cs]
    | .ref l =>
        match lookupStr refs l with
        | some body => validateSchemaType fuel body refs [.key "let", .key l] value dp
        | none => [mkVE dp sp (brokenRefMsg l)]
    | .object entries =>
        match value with
        | .obj kvs =>
            walkFields (fun t sp1 v dp1 => validateSchemaType fuel t refs sp1 v dp1)
              sp dp kvs entries
        | _ => [mkVE dp sp ("expected object")]

/-- The validator produced by `matchesSchema` for a whole schema
document: the root type is compiled at schema path `['schema']` and
applied at the empty data path. -/
def matchesSchemaErrors (fuel : Nat) (refs : List (String × SchemaType))
    (schema : SchemaType) (value : Value) : List ValidationError :=
  validateSchemaType fuel schema refs [.key "schema"] value []

/-!
## The "root/let/ref" variant: zero values

`typeZeroValue` guards against unbounded recursion with a `Set` of
already-visited schema nodes, compared by JS object identity.  In a
schema document built by a parser every syntactic node is a distinct
object, and the only aliasing is through `ref`: `refs[label]` returns
the same object on every lookup.  Object identity is therefore modelled
by the node's path in the document: the root type lives at
`['schema']`, its sub-nodes at their positions below it, and each `let`
body at `['let', label]`.  The history set is threaded through the
traversal (the source mutates one shared `Set`, never removing
entries).

The source can also return the JS value `undefined` (for a broken `ref`
or an empty `enum` member list, both outside the typed `SchemaType`
contract); those unreachable-for-well-formed-schemas cases are modelled
as errors, as is fuel exhaustion.  The error payload is the schema node
the source embeds in its thrown message (or reads its `undefined` from).
-/

/-- Child loop shared by the `tuple` and `array` cases of
`typeZeroValue`: zero values of the listed argument types, with the
visitation history threaded left to right; `i` is the document index of
the head (argument `j` of the source array literal sits at index
`j + 1`). -/
def zeroThread
    (g : SchemaType → PathArray → List PathArray → Except SchemaType (Value × List PathArray))
    (id : PathArray) :
    List SchemaType → Nat → List PathArray → Except SchemaType (List Value × List PathArray)
  | [], _, hist => .ok ([], hist)
  | t :: ts, i, hist =>
      match g t (id ++ [.idx i]) hist with
      | .error e => .error e
      | .ok (v, h1) =>
          match zeroThread g id ts (i + 1) h1 with
          | .error e => .error e
          | .ok (vs, h2) => .ok (v :: vs, h2)

/-- Field loop of the object case of `typeZeroValue`: optional fields
are filtered out, every other field maps to its type's zero value, with
the history threaded left to right. -/
def zeroFields
    (g : SchemaType → PathArray → List PathArray → Except SchemaType (Value × List PathArray))
    (id : PathArray) :
    List (String × Bool × SchemaType) → List PathArray →
      Except SchemaType (List (String × Value) × List PathArray)
  | [], hist => .ok ([], hist)
  | (k, isOpt, t) :: rest, hist =>
      if isOpt then zeroFields g id rest hist
      else
        match g t (id ++ [.key k]) hist with
        | .error e => .error e
        | .ok (v, h1) =>
            match zeroFields g id rest h1 with
            | .error e => .error e
            | .ok (kvs, h2) => .ok ((k, v) :: kvs, h2)

/-- `typeZeroValue` from the source.  Scalar forms return their zero
value before the history set is consulted; every other form first
throws if its identity is already in the history, then adds itself.
`fuel` is decremented once per nesting level (see `validateSchemaType`).
-/
def typeZeroValue :
    Nat → SchemaType → List (String × SchemaType) → PathArray → List PathArray →
      Except SchemaType (Value × List PathArray)
  | 0, schema, _, _, _ => .error schema
  | fuel + 1, schema, refs, id, history =>
    match schema with
    | .nullV => .ok (.null, history)
    | .nullT => .ok (.null, history)
    | .booleanT => .ok (.bool false, history)
    | .floatT => .ok (.num 0, history)
    | .integerT => .ok (.num 0, history)
    | .numberT => .ok (.num 0, history)
    | .stringT => .ok (.str "", history)
    | .dateT => .ok (.date 0, history)
    | .binaryT => .ok (.binary [], history)
    | .enumT ms =>
        if id ∈ history then .error (.enumT ms)
        else
          match ms with
          | m :: _ => .ok (primToValue m, id :: history)
          | [] => .error (.enumT ms)
    | .tuple args =>
        if id ∈ history then .error (.tuple args)
        else
          match zeroThread (fun t id1 h1 => typeZeroValue fuel t refs id1 h1)
              id args 1 (id :: history) with
          | .error e => .error e
          | .ok (vs, h2) => .ok (.arr vs, h2)
    | .array args =>
        if id ∈ history then .error (.array args)
        else
          match zeroThread (fun t id1 h1 => typeZeroValue fuel t refs id1 h1)
              id args.dropLast 1 (id :: history) with
          | .error e => .error e
          | .ok (vs, h2) => .ok (.arr vs, h2)
    | .dictionary t =>
        if id ∈ history then .error (.dictionary t)
        else .ok (.obj [], id :: history)
    | .oneof alts =>
        if id ∈ history then .error (.oneof alts)
        else
          match alts with
          | a :: _ => typeZeroValue fuel a refs (id ++ [.idx 1]) (id :: history)
          | [] => .error (.oneof alts)
    | .ref l =>
        if id ∈ history then .error (.ref l)
        else
          match lookupStr refs l with
          | some body => typeZeroValue fuel body refs [.key "let", .key l] (id :: history)
          | none => .error (.ref l)
    | .object entries =>
        if id ∈ history then .error (.object entries)
        else
          match zeroFields (fun t id1 h1 => typeZeroValue fuel t refs id1 h1)
              id entries (id :: history) with
          | .error e => .error e
          | .ok (kvs, h2) => .ok (.obj kvs, h2)

/-- `zeroValue` from the source: the zero value of a whole schema
document, starting with a fresh history set.  The root type lives at
document path `['schema']`. -/
def zeroValue (fuel : Nat) (refs : List (String × SchemaType)) (schema : SchemaType) :
    Except SchemaType Value :=
  match typeZeroValue fuel schema refs [.key "schema"] [] with
  | .error e => .error e
  | .ok (v, _) => .ok v

/-!
## The "root/let/ref" variant: the schema-source grammar check

`isSchemaType` / `isSchema` take a raw value and an optional mutable
`errors` array.  The optional array is modelled by the flag `collect`:
with `collect = true` every diagnostic is accumulated and loops continue
past failures; with `collect = false` no diagnostics are kept and the
source's `if (!errors) break / return false` short-circuits are taken.
The `refs` argument is only ever used through the `schema[1] in refs`
membership test, so it is modelled as the list of `let` keys.
-/

/-- A `{message, location}` schema-grammar diagnostic. -/
structure SchemaError where
  message : String
  location : PathArray
deriving DecidableEq, Repr

/-- Approximation of `JSON.stringify` on an arbitrary value (used only
inside diagnostic message text). -/
def jsonValue : Nat → Value → String
  | _, .null => "null"
  | _, .bool true => "true"
  | _, .bool false => "false"
  | _, .num q => ratToString q
  | _, .str s => jsonString s
  | _, .date ms => jsonString (toString ms)
  | _, .binary _ => "\x7b\x7d"
  | 0, .arr _ => "[...]"
  | 0, .obj _ => "\x7b...\x7d"
  | fuel + 1, .arr xs =>
      "[" ++ String.intercalate "," (xs.map (fun x => jsonValue fuel x)) ++ "]"
  | fuel + 1, .obj kvs =>
      "\x7b" ++
        String.intercalate ","
          (kvs.map (fun kv => jsonString kv.1 ++ ":" ++ jsonValue fuel kv.2)) ++
        "\x7d"

/-- The `enum` member loop of `isSchemaType`: scalar members pass, any
other member records a diagnostic and fails the whole check, but the
loop never breaks early (also in no-collect mode, as in the source). -/
def schemaEnumLoop (collect : Bool) (location : PathArray) :
    List Value → Nat → Bool × List SchemaError
  | [], _ => (true, [])
  | item :: rest, i =>
      let (restOk, restErrs) := schemaEnumLoop collect location rest (i + 1)
      match item with
      | .null => (restOk, restErrs)
      | .bool _ => (restOk, restErrs)
      | .num _ => (restOk, restErrs)
      | .str _ => (restOk, restErrs)
      | _ =>
          (false,
            (if collect then
              [SchemaError.mk
                ("\"enum\" type elements must be boolean, number, string, or null")
                (location ++ [.idx i])]
            else []) ++ restErrs)

/-- The element loop shared by the `tuple` / `array` / `oneof` cases of
`isSchemaType`: each element is checked recursively; on failure the
result is false, and without diagnostics the loop breaks at the first
failure. -/
def schemaElemsLoop (f : Value → PathArray → Bool × List SchemaError) (collect : Bool)
    (location : PathArray) :
    List Value → Nat → Bool → List SchemaError → Bool × List SchemaError
  | [], _, result, errs => (result, errs)
  | item :: rest, i, result, errs =>
      let (ok, es) := f item (location ++ [.idx i])
      if ok then schemaElemsLoop f collect location rest (i + 1) result (errs ++ es)
      else if collect then schemaElemsLoop f collect location rest (i + 1) false (errs ++ es)
      else (false, errs ++ es)

/-- The sub-schema an object-type entry value is checked at: the
second element for a well-formed `["optional", T]` wrapper, the value
itself otherwise, and `none` for an `optional` wrapper of the wrong
length (an error). -/
def objEntryTarget (v : Value) : Option Value :=
  match v with
  | .arr (v0 :: vrest) =>
      match v0 with
      | .str s0 =>
          if s0 = "optional" then
            if vrest.length ≠ 1 then none
            else
              match vrest with
              | s :: _ => some s
              | [] => none
          else some (.arr (v0 :: vrest))
      | _ => some (.arr (v0 :: vrest))
  | _ => some v

/-- The entry loop of the object case of `isSchemaType`: entries whose
value is an array starting with the string `"optional"` must have
exactly two elements and are checked at their second element; every
other entry value is checked directly.  On a failure, without
diagnostics the loop breaks at once. -/
def schemaObjLoop (f : Value → PathArray → Bool × List SchemaError) (collect : Bool)
    (location : PathArray) :
    List (String × Value) → Bool → List SchemaError → Bool × List SchemaError
  | [], result, errs => (result, errs)
  | (k, v) :: rest, result, errs =>
      match objEntryTarget v with
      | some s =>
          let (ok, es) := f s (location ++ [.key k])
          if ok then schemaObjLoop f collect location rest result (errs ++ es)
          else if collect then schemaObjLoop f collect location rest false (errs ++ es)
          else (false, errs ++ es)
      | none =>
          if collect then
            schemaObjLoop f collect location rest false
              (errs ++ [SchemaError.mk
                ("\"optional\" type must have exactly 2 elements")
                (location ++ [.key k])])
          else (false, errs)

/-- One level of `isSchemaType` from the source, with `f` standing for
the recursive check of sub-schema-types: is the raw value a well-formed
`SchemaType` under the `let` labels `refs`?  Returns the verdict
together with the list of diagnostics recorded when `collect` is set. -/
def isSchemaTypeStep (f : Value → PathArray → Bool × List SchemaError)
    (collect : Bool) (schema : Value) (refs : List String) (location : PathArray) :
    Bool × List SchemaError :=
    match schema with
    | .null => (true, [])
    | .arr items =>
        if items.length < 2 then
          (false,
            if collect then
              [SchemaError.mk ("Array types must have at least 2 elements") location]
            else [])
        else
          match items with
          | [] => (false, [])
          | v0 :: rest =>
            match v0 with
            | .str head =>
                if head = "enum" then schemaEnumLoop collect location rest 1
                else if head = "tuple" ∨ head = "array" ∨ head = "oneof" then
                  schemaElemsLoop f collect location rest 1 true []
                else if head = "dictionary" then
                  if items.length ≠ 2 then
                    (false,
                      if collect then
                        [SchemaError.mk ("\"dictionary\" type must have exactly 2 elements")
                          location]
                      else [])
                  else
                    match rest with
                    | v1 :: _ => f v1 (location ++ [.idx 1])
                    | [] => (false, [])
                else if head = "ref" then
                  if items.length ≠ 2 then
                    (false,
                      if collect then
                        [SchemaError.mk ("\"ref\" type must have exactly 2 elements") location]
                      else [])
                  else
                    match rest with
                    | .str l :: _ =>
                        if refs.contains l then (true, [])
                        else
                          (false,
                            if collect then
                              [SchemaError.mk
                                ("\"ref\" type refers to nonexistent variable " ++ jsonString l)
                                (location ++ [.idx 1])]
                            else [])
                    | _ =>
                        (false,
                          if collect then
                            [SchemaError.mk ("\"ref\" type label must be a string")
                              (location ++ [.idx 1])]
                          else [])
                else if head = "optional" then
                  (false,
                    if collect then
                      [SchemaError.mk ("\"optional\" type is only allowed as an object key")
                        location]
                    else [])
                else
                  (false,
                    if collect then
                      [SchemaError.mk ("Unknown array type: " ++ jsonString head)
                        (location ++ [.idx 0])]
                    else [])
            | _ =>
                (false,
                  if collect then
                    [SchemaError.mk ("Array types must start with a string")
                      (location ++ [.idx 0])]
                  else [])
    | .obj kvs =>
        schemaObjLoop f collect location kvs true []
    | .str s =>
        if s = "null" ∨ s = "boolean" ∨ s = "integer" ∨ s = "float" ∨ s = "number" ∨
            s = "string" ∨ s = "date" ∨ s = "binary" then
          (true, [])
        else
          (false,
            if collect then
              [SchemaError.mk ("Unknown scalar type: " ++ jsonString s) location]
            else [])
    | other =>
        (false,
          if collect then
            [SchemaError.mk ("Literal value outside \"enum\": " ++ jsonValue 6 other) location]
          else [])

/-- `isSchemaType` from the source: `fuel` is decremented once per
nesting level; exhaustion fails the check identically in both modes and
is never reached by the theorems below. -/
def isSchemaType :
    Nat → Bool → Value → List String → PathArray → Bool × List SchemaError
  | 0, _, _, _, _ => (false, [])
  | fuel + 1, collect, schema, refs, location =>
      isSchemaTypeStep (fun v loc => isSchemaType fuel collect v refs loc)
        collect schema refs location

/-- The `let` entry loop of `isSchema`: every `let` body must be a
well-formed `SchemaType`; without diagnostics the whole `isSchema` call
aborts at the first bad body (third component `true`). -/
def schemaLetLoop (f : Value → PathArray → Bool × List SchemaError) (collect : Bool) :
    List (String × Value) → Bool → List SchemaError → Bool × List SchemaError × Bool
  | [], result, errs => (result, errs, false)
  | (k, v) :: rest, result, errs =>
      let (ok, es) := f v [.key "let", .key k]
      if ok then schemaLetLoop f collect rest result (errs ++ es)
      else if collect then schemaLetLoop f collect rest false (errs ++ es)
      else (false, errs ++ es, true)

/-- The `spartan` version-marker check of `isSchema`: bad when the
property is present and is not exactly the number 1. -/
def spartanBadCheck (kvs : List (String × Value)) : Bool :=
  match lookupStr kvs "spartan" with
  | none => false
  | some (.num q) => q != 1
  | some _ => true

/-- The final step of `isSchema`: the root must have a `schema`
property, well-formed in the scope `refs`, and the verdict is its check
conjoined with the accumulated result. -/
def isSchemaFinal (fuel : Nat) (collect : Bool) (kvs : List (String × Value))
    (refs : List String) (result : Bool) (errs : List SchemaError) :
    Bool × List SchemaError :=
  match lookupStr kvs "schema" with
  | some s =>
      let (ok, es) := isSchemaType fuel collect s refs [.key "schema"]
      (ok && result, errs ++ es)
  | none =>
      (false,
        errs ++
          if collect then
            [SchemaError.mk ("Schema must have a \"schema\" property") []]
          else [])

/-- The `let` step of `isSchema`: a present `let` must be an object
whose every body is well-formed with all `let` keys in scope; without
diagnostics the whole call aborts at the first bad body. -/
def isSchemaLet (fuel : Nat) (collect : Bool) (kvs : List (String × Value))
    (result1 : Bool) (errs1 : List SchemaError) : Bool × List SchemaError :=
  match lookupStr kvs "let" with
  | some (.obj letkvs) =>
      let refs := letkvs.map Prod.fst
      match schemaLetLoop (fun w loc => isSchemaType fuel collect w refs loc)
          collect letkvs result1 errs1 with
      | (_, errs2, true) => (false, errs2)
      | (result2, errs2, false) => isSchemaFinal fuel collect kvs refs result2 errs2
  | some _ =>
      if collect then
        isSchemaFinal fuel collect kvs [] false
          (errs1 ++
            [SchemaError.mk ("Schema property \"let\" must be an object, if present")
              [.key "let"]])
      else (false, [])
  | none => isSchemaFinal fuel collect kvs [] result1 errs1

/-- `isSchema` from the source: is the raw value a well-formed schema
document?  Checks `spartan` (must be exactly `1` if present), `let`,
and `schema` in order. -/
def isSchema (fuel : Nat) (collect : Bool) (v : Value) : Bool × List SchemaError :=
  match v with
  | .obj kvs =>
      if spartanBadCheck kvs && !collect then (false, [])
      else
        isSchemaLet fuel collect kvs (!spartanBadCheck kvs)
          (if spartanBadCheck kvs then
            [SchemaError.mk ("Schema property \"spartan\" must be 1, if present")
              [.key "spartan"]]
          else [])
  | _ =>
      (false,
        if collect then [SchemaError.mk ("Schema must be an object") []] else [])

/-- The diamond-sharing schema document
`{let: {A: ['tuple','integer']}, schema: ['tuple', ['ref','A'], ['ref','A']]}`:
its root references the label `A` twice, non-cyclically. -/
def diamondRefs : List (String × SchemaType) := [("A", .tuple [.integerT])]

/-- The root type of the diamond-sharing schema. -/
def diamondRoot : SchemaType := .tuple [.ref "A", .ref "A"]

/-- The diamond-sharing schema as a raw schema document value. -/
def diamondDoc : Value :=
  .obj [("schema", .arr [.str "tuple", .arr [.str "ref", .str "A"],
          .arr [.str "ref", .str "A"]]),
        ("let", .obj [("A", .arr [.str "tuple", .str "integer"])])]

/-- The `C1` example schema
`["array", ["tuple","integer"], ["tuple","string","string","boolean"]]`. -/
def tuplesSchemaL : SchemaType :=
  .array [.tuple [.integerT], .tuple [.stringT, .stringT, .booleanT]]

/-- One failure list per alternative, in declaration order, exactly as
the claim describes the `children` of a total `oneof` failure
(`j` numbers alternatives from 1, matching their schema paths). -/
def altFailureLists (fuel : Nat) (refs : List (String × SchemaType)) (sp : PathArray)
    (v : Value) (dp : PathArray) : List SchemaType → Nat → List (List ValidationError)
  | [], _ => []
  | a :: rest, j =>
      validateSchemaType fuel a refs (sp ++ [.idx j]) v dp ::
        altFailureLists fuel refs sp v dp rest (j + 1)

end Spartan

namespace Classic

open Spartan (Step PathArray Prim Value lookupStr hasKey primToValue primEqValue ratToString)

/-!
## The earlier class-based variant (`src/schema.ts`)

`CSchema` renders the compiled `Schema<T>` class hierarchy as a closed
sum: one constructor per concrete node class.  `FixpointType` — the
mutable placeholder patched in by `compileSchema` for labels that refer
to themselves or to a later sibling label from inside a `let`-style
binding — is not representable in an inductive tree and is omitted:
this embedding models exactly the fixpoint-free compiled schema graphs
(every graph `compileSchema` produces from a source without
intra-binding label references, and every finite unfolding of one that
has them).
-/

inductive CSchema where
  | stringT
  | floatT
  | integerT
  | binaryT
  | dateT
  | booleanT
  | nullT
  | enumT : List Prim → CSchema
  | oneof : List CSchema → CSchema
  | array : CSchema → CSchema
  | dictionary : CSchema → CSchema
  | object : List (String × CSchema) → CSchema
  | anyT

/-- `ValidateOptions`: the data path accumulated so far and the
`allowExtraFields` flag (both defaulted when absent: `[]` / false). -/
structure VOpts where
  path : PathArray := []
  allowExtraFields : Bool := false

/-- `RestrictOptions` (all default false). -/
structure ROpts where
  fillEmpty : Bool := false
  fillZero : Bool := false
  coerce : Bool := false

/-- A `TypeMismatch`: the failing schema node, the offending value, and
the data path at which it was found. -/
structure TypeMismatch where
  type : CSchema
  value : Value
  path : PathArray

/-- `isScalar()`: true exactly on the `ScalarType` subclasses (the seven
primitive types and `EnumType`). -/
def isScalar : CSchema → Bool
  | .stringT => true
  | .floatT => true
  | .integerT => true
  | .binaryT => true
  | .dateT => true
  | .booleanT => true
  | .nullT => true
  | .enumT _ => true
  | _ => false

mutual

/-- `hasFixedShape()` per node class: scalars are always fixed; a
`oneof` requires every subtype to be a scalar with a fixed shape;
arrays / dictionaries / objects delegate to their children; `any` is
never fixed. -/
def hasFixedShape : CSchema → Bool
  | .stringT => true
  | .floatT => true
  | .integerT => true
  | .binaryT => true
  | .dateT => true
  | .booleanT => true
  | .nullT => true
  | .enumT _ => true
  | .oneof ts => allScalarFixed ts
  | .array t => hasFixedShape t
  | .dictionary t => hasFixedShape t
  | .object entries => allFieldsFixed entries
  | .anyT => false

def allScalarFixed : List CSchema → Bool
  | [] => true
  | t :: ts => (isScalar t && hasFixedShape t) && allScalarFixed ts

def allFieldsFixed : List (String × CSchema) → Bool
  | [] => true
  | (_, t) :: rest => hasFixedShape t && allFieldsFixed rest

end

/-- Whether a key is declared among an object type's entries
(`k in this.entries`). -/
def hasEntry (entries : List (String × CSchema)) (k : String) : Bool :=
  (lookupStr entries k).isSome

/-- Element loop of `ArrayType.validate`: `flatMap` of the element
type's validator over the elements, with the data path extended by the
element index. -/
def vElems (f : Value → VOpts → List TypeMismatch) (o : VOpts) :
    List Value → Nat → List TypeMismatch
  | [], _ => []
  | x :: xs, i => f x { o with path := o.path ++ [.idx i] } ++ vElems f o xs (i + 1)

/-- Entry loop of `DictionaryType.validate`: `flatMap` of the value
type's validator over the entry values, with the data path extended by
the key. -/
def vEntries (f : Value → VOpts → List TypeMismatch) (o : VOpts) :
    List (String × Value) → List TypeMismatch
  | [] => []
  | (k, x) :: rest => f x { o with path := o.path ++ [.key k] } ++ vEntries f o rest

mutual

/-- `validate` per node class.  Scalars test the runtime type
(`IntegerType` additionally compares the number with its floor); enums
test membership; `oneof` succeeds when some subtype does and otherwise
reports itself; arrays / dictionaries recurse into every element /
entry; objects validate each declared key that is present and, unless
`allowExtraFields` is set, additionally report themselves when the
value has a key that is not declared; `any` accepts everything. -/
def validate : CSchema → Value → VOpts → List TypeMismatch
  | .stringT, v, o =>
      match v with
      | .str _ => []
      | _ => [⟨.stringT, v, o.path⟩]
  | .floatT, v, o =>
      match v with
      | .num _ => []
      | _ => [⟨.floatT, v, o.path⟩]
  | .integerT, v, o =>
      match v with
      | .num q => if (⌊q⌋ : ℚ) = q then [] else [⟨.integerT, .num q, o.path⟩]
      | _ => [⟨.integerT, v, o.path⟩]
  | .binaryT, v, o =>
      match v with
      | .binary _ => []
      | _ => [⟨.binaryT, v, o.path⟩]
  | .dateT, v, o =>
      match v with
      | .date _ => []
      | _ => [⟨.dateT, v, o.path⟩]
  | .booleanT, v, o =>
      match v with
      | .bool _ => []
      | _ => [⟨.booleanT, v, o.path⟩]
  | .nullT, v, o =>
      match v with
      | .null => []
      | _ => [⟨.nullT, v, o.path⟩]
  | .enumT ms, v, o =>
      if ms.any (fun m => primEqValue m v) then [] else [⟨.enumT ms, v, o.path⟩]
  | .oneof ts, v, o =>
      if anyValidates ts v o then [] else [⟨.oneof ts, v, o.path⟩]
  | .array t, v, o =>
      match v with
      | .arr xs => vElems (fun x o1 => validate t x o1) o xs 0
      | _ => [⟨.array t, v, o.path⟩]
  | .dictionary t, v, o =>
      match v with
      | .obj kvs => vEntries (fun x o1 => validate t x o1) o kvs
      | _ => [⟨.dictionary t, v, o.path⟩]
  | .object entries, v, o =>
      match v with
      | .obj kvs =>
          vFields entries o kvs ++
            (if !o.allowExtraFields && !(kvs.all fun kv => hasEntry entries kv.1) then
              [⟨.object entries, .obj kvs, o.path⟩]
            else [])
      | _ => [⟨.object entries, v, o.path⟩]
  | .anyT, _, _ => []

/-- `OneOfType.validate`'s test: does some subtype accept the value? -/
def anyValidates : List CSchema → Value → VOpts → Bool
  | [], _, _ => false
  | t :: ts, v, o => (validate t v o).isEmpty || anyValidates ts v o

/-- Field loop of `ObjectType.validate`: a declared key that is present
is validated at the extended data path; an absent key is skipped. -/
def vFields : List (String × CSchema) → VOpts → List (String × Value) → List TypeMismatch
  | [], _, _ => []
  | (k, t) :: rest, o, kvs =>
      (match lookupStr kvs k with
       | some x => validate t x { o with path := o.path ++ [.key k] }
       | none => []) ++ vFields rest o kvs

end

mutual

/-- `zeroValue` per node class: primitives per the table, enums their
first member, `oneof` its first subtype's zero, arrays / dictionaries
empty, objects every key's zero, `any` null.  (`subtypes[0]` /
`members[0]` on an empty list is `undefined` in the source and cannot
arise from compiled schemas; it is rendered as null.) -/
def zeroValue : CSchema → Value
  | .stringT => .str ""
  | .floatT => .num 0
  | .integerT => .num 0
  | .binaryT => .binary []
  | .dateT => .date 0
  | .booleanT => .bool false
  | .nullT => .null
  | .enumT ms =>
      match ms with
      | m :: _ => primToValue m
      | [] => .null
  | .oneof ts =>
      match ts with
      | t :: _ => zeroValue t
      | [] => .null
  | .array _ => .arr []
  | .dictionary _ => .obj []
  | .object entries => .obj (zFields entries)
  | .anyT => .null

/-- Field loop of `ObjectType.zeroValue`. -/
def zFields : List (String × CSchema) → List (String × Value)
  | [] => []
  | (k, t) :: rest => (k, zeroValue t) :: zFields rest

end

/-- Approximation of JS template-literal stringification of a number
(used only by string coercion, which no claim exercises). -/
def jsNumToString (q : ℚ) : String := ratToString q

/-- Base64 alphabet. -/
def base64Char (n : Nat) : Char :=
  "ABCDEFGHIJKLMNOPQRSTUVWXYZabcdefghijklmnopqrstuvwxyz0123456789+/".toList.getD n 'A'

/-- Base64 encoding of a byte list (model of
`Buffer.from(value).toString('base64')`). -/
def base64String : List Nat → String
  | [] => ""
  | [a] =>
      String.mk [base64Char (a / 4), base64Char (a % 4 * 16)] ++ "=="
  | [a, b] =>
      String.mk [base64Char (a / 4), base64Char (a % 4 * 16 + b / 16),
        base64Char (b % 16 * 4)] ++ "="
  | a :: b :: c :: rest =>
      String.mk [base64Char (a / 4), base64Char (a % 4 * 16 + b / 16),
        base64Char (b % 16 * 4 + c / 64), base64Char (c % 64)] ++ base64String rest

/-- Approximation of base64 decoding (model of
`Buffer.from(value, 'base64')`; no claim exercises binary coercion). -/
def base64Bytes (s : String) : List Nat :=
  s.toList.filterMap fun c =>
    let i := "ABCDEFGHIJKLMNOPQRSTUVWXYZabcdefghijklmnopqrstuvwxyz0123456789+/".toList.indexOf c
    if i < 64 then some i else none

/-- Approximation of `Date.prototype.toISOString` (calendar rendering is
not modelled; no claim exercises date coercion). -/
def isoString (ms : ℤ) : String := toString ms

/-- Longest leading digit run, as a number (`none` when there is no
digit, i.e. `parseInt` returns `NaN`). -/
def leadingDigits : List Char → Option Nat → Option Nat
  | c :: rest, acc =>
      if c.isDigit then
        leadingDigits rest (some ((acc.getD 0) * 10 + (c.toNat - 48)))
      else acc
  | [], acc => acc

/-- Model of `parseInt` (leading sign and digits; no whitespace
handling). -/
def jsParseInt (s : String) : Option ℤ :=
  match s.toList with
  | '-' :: rest => (leadingDigits rest none).map fun n => -(n : ℤ)
  | '+' :: rest => (leadingDigits rest none).map fun n => (n : ℤ)
  | cs => (leadingDigits cs none).map fun n => (n : ℤ)

/-- Approximation of unary-plus number conversion on a string (`NaN`
and fractional parses are not modelled; no claim exercises float
coercion). -/
def jsToNumber (s : String) : ℚ :=
  match jsParseInt s with
  | some n => (n : ℚ)
  | none => 0

/-- `Math.round`: half-up rounding. -/
def jsRound (q : ℚ) : ℤ := ⌊q + 1 / 2⌋

/-- JS truthiness of a (possibly `undefined`) value. -/
def truthy : Option Value → Bool
  | none => false
  | some .null => false
  | some (.bool b) => b
  | some (.num q) => q != 0
  | some (.str s) => s ≠ ""
  | some (.date _) => true
  | some (.binary _) => true
  | some (.arr _) => true
  | some (.obj _) => true

/-- Element loop of `ArrayType.restrict`: restrict every element, drop
the ones that restrict to `undefined`. -/
def rElems (f : Option Value → Option Value) : List Value → List Value
  | [] => []
  | x :: xs =>
      match f (some x) with
      | some w => w :: rElems f xs
      | none => rElems f xs

/-- Entry loop of `DictionaryType.restrict`: restrict every entry
value, drop entries that restrict to `undefined`. -/
def rDict (f : Option Value → Option Value) : List (String × Value) → List (String × Value)
  | [] => []
  | (k, x) :: rest =>
      match f (some x) with
      | some w => (k, w) :: rDict f rest
      | none => rDict f rest

mutual

/-- `restrict` per node class, with `none` standing for the JS
`undefined` (both as the absent-key input of object restriction and as
the "cannot restrict" result).  Scalars return a matching value
unchanged, then try the coercion table when `coerce` is set, then the
zero value when `fillZero` is set; enums likewise.  `oneof` tries every
subtype without options, then (under `coerce`) with coercion, then
falls back to the zero value under `fillZero` or, under `fillEmpty`
when its shape is not fixed, to the first subtype restriction that
yields an array or object.  Arrays and dictionaries keep the elements /
entries that restrict; objects rebuild the declared keys whose
restriction is defined; `any` is the identity. -/
def restrict : CSchema → Option Value → ROpts → Option Value
  | .stringT, v, o =>
      match v with
      | some (.str s) => some (.str s)
      | _ =>
          if o.coerce then
            match v with
            | some (.num q) => some (.str (jsNumToString q))
            | some (.bool true) => some (.str "true")
            | some (.bool false) => some (.str "false")
            | some .null => some (.str "null")
            | some (.binary bs) => some (.str (base64String bs))
            | some (.date ms) => some (.str (isoString ms))
            | _ => if o.fillZero then some (zeroValue .stringT) else none
          else if o.fillZero then some (zeroValue .stringT) else none
  | .floatT, v, o =>
      match v with
      | some (.num q) => some (.num q)
      | _ =>
          if o.coerce then
            match v with
            | some (.str s) => some (.num (jsToNumber s))
            | some (.bool true) => some (.num 1)
            | some (.bool false) => some (.num 0)
            | some .null => some (.num 0)
            | none => some (.num 0)
            | _ => if o.fillZero then some (zeroValue .floatT) else none
          else if o.fillZero then some (zeroValue .floatT) else none
  | .integerT, v, o =>
      match v with
      | some (.num q) =>
          if (⌊q⌋ : ℚ) = q then some (.num q)
          else if o.coerce then some (.num (jsRound q))
          else if o.fillZero then some (zeroValue .integerT) else none
      | _ =>
          if o.coerce then
            match v with
            | some (.str s) =>
                match jsParseInt s with
                | some n => some (.num (n : ℚ))
                | none => if o.fillZero then some (zeroValue .integerT) else none
            | some (.bool true) => some (.num 1)
            | some (.bool false) => some (.num 0)
            | some .null => some (.num 0)
            | none => some (.num 0)
            | some (.date ms) => some (.num (ms : ℚ))
            | _ => if o.fillZero then some (zeroValue .integerT) else none
          else if o.fillZero then some (zeroValue .integerT) else none
  | .binaryT, v, o =>
      match v with
      | some (.binary bs) => some (.binary bs)
      | _ =>
          if o.coerce then
            match v with
            | some (.str s) => some (.binary (base64Bytes s))
            | _ => if o.fillZero then some (zeroValue .binaryT) else none
          else if o.fillZero then some (zeroValue .binaryT) else none
  | .dateT, v, o =>
      match v with
      | some (.date ms) => some (.date ms)
      | _ =>
          if o.coerce then
            match v with
            | some (.str _) => some (.date 0)
            | some (.num q) => some (.date ⌊q⌋)
            | _ => if o.fillZero then some (zeroValue .dateT) else none
          else if o.fillZero then some (zeroValue .dateT) else none
  | .booleanT, v, o =>
      match v with
      | some (.bool b) => some (.bool b)
      | _ =>
          if o.coerce then some (.bool (truthy v))
          else if o.fillZero then some (zeroValue .booleanT) else none
  | .nullT, v, o =>
      match v with
      | some .null => some .null
      | _ =>
          if (o.coerce && !truthy v) || o.fillZero then some .null else none
  | .enumT ms, v, o =>
      match v with
      | some x =>
          if ms.any (fun m => primEqValue m x) then some x
          else if o.fillZero then some (zeroValue (.enumT ms)) else none
      | none => if o.fillZero then some (zeroValue (.enumT ms)) else none
  | .oneof ts, v, o =>
      match rLoop ts v ⟨false, false, false⟩ with
      | some r => some r
      | none =>
          match (if o.coerce then rLoop ts v ⟨false, false, true⟩ else none) with
          | some r => some r
          | none =>
              if o.fillZero then some (zeroValue (.oneof ts))
              else if o.fillEmpty && !hasFixedShape (.oneof ts) then
                rFindCollection ts v o
              else none
  | .array t, v, o =>
      match v with
      | some (.arr xs) => some (.arr (rElems (fun x => restrict t x o) xs))
      | _ =>
          if o.fillEmpty || o.fillZero then some (zeroValue (.array t)) else none
  | .dictionary t, v, o =>
      match v with
      | some (.obj kvs) => some (.obj (rDict (fun x => restrict t x o) kvs))
      | _ =>
          if o.fillEmpty || o.fillZero then some (zeroValue (.dictionary t)) else none
  | .object entries, v, o =>
      match v with
      | some (.obj kvs) => some (.obj (rFields entries kvs o))
      | _ =>
          if o.fillZero || o.fillEmpty then some (.obj (rFields entries [] o))
          else none
  | .anyT, v, _ => v

/-- First subtype restriction that is defined (`OneOfType.restrict`'s
two scanning loops, parameterized by the options each loop passes). -/
def rLoop : List CSchema → Option Value → ROpts → Option Value
  | [], _, _ => none
  | t :: ts, v, o =>
      match restrict t v o with
      | some r => some r
      | none => rLoop ts v o

/-- `OneOfType.restrict`'s `fillEmpty` fallback: the first subtype
restriction that yields an array or a plain object. -/
def rFindCollection : List CSchema → Option Value → ROpts → Option Value
  | [], _, _ => none
  | t :: ts, v, o =>
      match restrict t v o with
      | some (.arr xs) => some (.arr xs)
      | some (.obj kvs) => some (.obj kvs)
      | _ => rFindCollection ts v o

/-- Field loop of `ObjectType.restrict`: each declared key maps to the
restriction of its (possibly absent) value; undefined restrictions are
dropped. -/
def rFields : List (String × CSchema) → List (String × Value) → ROpts → List (String × Value)
  | [], _, _ => []
  | (k, t) :: rest, kvs, o =>
      match restrict t (lookupStr kvs k) o with
      | some w => (k, w) :: rFields rest kvs o
      | none => rFields rest kvs o

end

/-- The object key a path step denotes under JS property access
(numbers are coerced to their decimal string). -/
def stepToKey : Step → String
  | .key k => k
  | .idx n => toString n

/-- `child(step)` per node class, with `AmbiguousPathError` as the
`Except` error carrying the thrown path (`[step]` at the throw site).
Scalars have no children; a `oneof` without a fixed shape and `any`
are ambiguous; arrays accept only numeric steps, dictionaries only
string steps; objects look the step up among their entries. -/
def child : CSchema → Step → Except (List Step) (Option CSchema)
  | .stringT, _ => .ok none
  | .floatT, _ => .ok none
  | .integerT, _ => .ok none
  | .binaryT, _ => .ok none
  | .dateT, _ => .ok none
  | .booleanT, _ => .ok none
  | .nullT, _ => .ok none
  | .enumT _, _ => .ok none
  | .oneof ts, s => if hasFixedShape (.oneof ts) then .ok none else .error [s]
  | .array t, s =>
      match s with
      | .idx _ => .ok (some t)
      | .key _ => .ok none
  | .dictionary t, s =>
      match s with
      | .key _ => .ok (some t)
      | .idx _ => .ok none
  | .object entries, s => .ok (lookupStr entries (stepToKey s))
  | .anyT, s => .error [s]

/-- The walk of `Schema.atPath`: each step is pushed onto `sofar`
before `child` is queried; an `AmbiguousPathError` escaping `child` is
re-thrown carrying the steps walked so far; an undefined intermediate
node stops the walk with an undefined result. -/
def atPathLoop : Option CSchema → List Step → List Step → Except (List Step) (Option CSchema)
  | s, [], _ => .ok s
  | none, _ :: _, _ => .ok none
  | some sc, st :: rest, sofar =>
      match child sc st with
      | .error _ => .error (sofar ++ [st])
      | .ok next => atPathLoop next rest (sofar ++ [st])

/-- `atPath(path)`: `ScalarType` overrides it to return undefined
outright; every other node runs the walk from itself. -/
def atPath (s : CSchema) (p : List Step) : Except (List Step) (Option CSchema) :=
  if isScalar s then .ok none
  else atPathLoop (some s) p []

/-- Whether every key list in a plain-object node is duplicate-free
(true of every value a JS engine can hand the library, since JS object
keys are unique). -/
def keysNodup {α : Type} : List (String × α) → Bool
  | [] => true
  | (k, _) :: rest => !(hasKey rest k) && keysNodup rest

mutual

/-- Model-side well-formedness of a value: object keys are unique at
every level. -/
def wfValue : Value → Bool
  | .arr xs => wfElems xs
  | .obj kvs => keysNodup kvs && wfFields kvs
  | _ => true

def wfElems : List Value → Bool
  | [] => true
  | x :: xs => wfValue x && wfElems xs

def wfFields : List (String × Value) → Bool
  | [] => true
  | (_, x) :: rest => wfValue x && wfFields rest

end

/-- Every key of the first association list appears in the second. -/
def keysSubset {α β : Type} : List (String × α) → List (String × β) → Bool
  | [], _ => true
  | (k, _) :: rest, ys => hasKey ys k && keysSubset rest ys

mutual

/-- Deep equality of values in the sense of the test suite's
`deepEqual`: arrays pointwise, plain objects by key set with deeply
equal values, everything else by structural equality. -/
def deepEq : Value → Value → Bool
  | .null, .null => true
  | .bool a, .bool b => a == b
  | .num a, .num b => a == b
  | .str a, .str b => a == b
  | .date a, .date b => a == b
  | .binary a, .binary b => a == b
  | .arr xs, .arr ys => deepEqElems xs ys
  | .obj xs, .obj ys => deepEqFields xs ys && keysSubset ys xs
  | _, _ => false

def deepEqElems : List Value → List Value → Bool
  | [], [] => true
  | x :: xs, y :: ys => deepEq x y && deepEqElems xs ys
  | _, _ => false

def deepEqFields : List (String × Value) → List (String × Value) → Bool
  | [], _ => true
  | (k, v) :: rest, ys =>
      (match lookupStr ys k with
       | some w => deepEq v w
       | none => false) &&
        deepEqFields rest ys

end

/-- Reachability in the compiled schema tree: a node reaches itself,
and every `oneof` alternative, array element type, dictionary value
type, and object field type is reachable from its parent. -/
inductive Reaches : CSchema → CSchema → Prop where
  | refl (s : CSchema) : Reaches s s
  | oneofAlt {ts t u} : t ∈ ts → Reaches t u → Reaches (.oneof ts) u
  | arrayElem {t u} : Reaches t u → Reaches (.array t) u
  | dictVal {t u} : Reaches t u → Reaches (.dictionary t) u
  | objField {es k t u} : (k, t) ∈ es → Reaches t u → Reaches (.object es) u

/-- The shape category the claim speaks of: scalar / array / object,
per the source's `isScalar` / `isArray` / `isObject` predicates
(`oneof` and `any` have none). -/
def shapeCat (s : CSchema) : Option Nat :=
  if isScalar s then some 0
  else
    match s with
    | .array _ => some 1
    | .dictionary _ => some 2
    | .object _ => some 2
    | _ => none

/-- The claim's reading of `hasFixedShape`: no reachable `any` node,
and no reachable `oneof` with two alternatives of different shape
categories. -/
def SpecFixedShape (s : CSchema) : Prop :=
  (∀ u, Reaches s u → u ≠ CSchema.anyT) ∧
  (∀ ts, Reaches s (CSchema.oneof ts) →
    ∀ t1 ∈ ts, ∀ t2 ∈ ts, ∀ c1 c2, shapeCat t1 = some c1 → shapeCat t2 = some c2 → c1 = c2)

/-- The code's actual `hasFixedShape` condition, phrased over the
reachable nodes: no reachable `any`, and every reachable `oneof` has
only scalar alternatives. -/
def NoAmbiguous (s : CSchema) : Prop :=
  (∀ u, Reaches s u → u ≠ CSchema.anyT) ∧
  (∀ ts, Reaches s (CSchema.oneof ts) → ∀ t ∈ ts, isScalar t = true)

/-- The C8 example schema: an object whose only field is a `oneof` of
two object types (not fixed-shape, hence ambiguous to walk through). -/
def c8Schema : CSchema :=
  .object [("a", .oneof [.object [("x", .integerT)], .object [("y", .integerT)]])]

/-- The empty `RestrictOptions` (`restrict(value, {})`). -/
def noOpts : ROpts := ⟨false, false, false⟩

mutual

/-- Every `oneof` node in the schema tree has only scalar alternatives
(the condition under which C3's amended statement holds; the
counterexample shows it cannot be dropped). -/
def oneofScalarOnly : CSchema → Bool
  | .oneof ts => allScalar ts
  | .array t => oneofScalarOnly t
  | .dictionary t => oneofScalarOnly t
  | .object entries => fieldsOneofScalar entries
  | _ => true

/-- All listed subtypes are scalars. -/
def allScalar : List CSchema → Bool
  | [] => true
  | t :: ts => isScalar t && allScalar ts

/-- `oneofScalarOnly` over an object type's entries. -/
def fieldsOneofScalar : List (String × CSchema) → Bool
  | [] => true
  | (_, t) :: rest => oneofScalarOnly t && fieldsOneofScalar rest

end

end Classic

/-!
## Claim theorems
-/

namespace Spartan

/-- A rational equals its own floor exactly when its denominator is 1
(the bridge between `Number.isInteger` and `value === Math.floor(value)`). -/
theorem den_one_iff_floor_eq (q : ℚ) : q.den = 1 ↔ (⌊q⌋ : ℚ) = q := by
  constructor
  · intro h
    have hq : (q.num : ℚ) = q := (Rat.den_eq_one_iff q).mp h
    rw [← hq, Int.floor_intCast]
  · intro h
    have h2 : q = ((⌊q⌋ : ℤ) : ℚ) := h.symm
    rw [h2, Rat.den_intCast]

/-- C5: a number value matches the `integer` type, in both engine
variants, exactly when it equals its own floor — `integer` is a
predicate on the number domain, not a separate representation. -/
theorem c5_integer_iff_floor (fuel : Nat) (refs : List (String × SchemaType))
    (sp dp : PathArray) (o : Classic.VOpts) (q : ℚ) :
    (validateSchemaType (fuel + 1) .integerT refs sp (.num q) dp = [] ↔ (⌊q⌋ : ℚ) = q) ∧
    (Classic.validate .integerT (.num q) o = [] ↔ (⌊q⌋ : ℚ) = q) := by
  constructor
  · rw [← den_one_iff_floor_eq]
    simp only [validateSchemaType]
    split
    · simp_all
    · simp_all
  · simp only [Classic.validate]
    split
    · simp_all
    · simp_all

end Spartan

namespace Spartan

/-- Every prefix zero value produced by `zeroThread` has one element
per listed argument type. -/
theorem zeroThread_length
    (g : SchemaType → PathArray → List PathArray → Except SchemaType (Value × List PathArray))
    (id : PathArray) :
    ∀ (ts : List SchemaType) (i : Nat) (hist : List PathArray) (vs : List Value)
      (h2 : List PathArray),
      zeroThread g id ts i hist = .ok (vs, h2) → vs.length = ts.length := by
  intro ts
  induction ts with
  | nil =>
      intro i hist vs h2 h
      simp only [zeroThread] at h
      cases h
      rfl
  | cons t rest ih =>
      intro i hist vs h2 h
      simp only [zeroThread] at h
      cases hg : g t (id ++ [.idx i]) hist with
      | error e => rw [hg] at h; cases h
      | ok p =>
          obtain ⟨v, h1⟩ := p
          rw [hg] at h
          simp only at h
          cases hrest : zeroThread g id rest (i + 1) h1 with
          | error e => rw [hrest] at h; cases h
          | ok p2 =>
              obtain ⟨vs2, h3⟩ := p2
              rw [hrest] at h
              simp only at h
              cases h
              simpa using ih _ _ _ _ hrest

/-- C7 (amended): the zero value of a variable-length array type
`['array', T1, ..., Tn]` is the sequence of zero values of the prefix
types `T1 ... T(n-1)` — in particular the empty sequence exactly when
`n = 1`; in general it has `n - 1` elements, the minimum length the
type accepts. -/
theorem c7_array_zero_min_length (fuel : Nat) (t : SchemaType) (args : List SchemaType)
    (refs : List (String × SchemaType)) (id : PathArray) (hist : List PathArray)
    (hnotin : id ∉ hist) :
    typeZeroValue (fuel + 1) (.array [t]) refs id hist = .ok (.arr [], id :: hist) ∧
    (∀ (v : Value) (h2 : List PathArray),
      typeZeroValue (fuel + 1) (.array args) refs id hist = .ok (v, h2) →
        ∃ vs : List Value, v = .arr vs ∧ vs.length = args.length - 1) := by
  constructor
  · simp only [typeZeroValue, List.dropLast, zeroThread]
    rw [if_neg hnotin]
  · intro v h2 h
    simp only [typeZeroValue] at h
    rw [if_neg hnotin] at h
    cases hz : zeroThread (fun t1 id1 h1 => typeZeroValue fuel t1 refs id1 h1)
        id args.dropLast 1 (id :: hist) with
    | error e => rw [hz] at h; cases h
    | ok p =>
        obtain ⟨vs, h3⟩ := p
        rw [hz] at h
        simp only [Except.ok.injEq, Prod.mk.injEq] at h
        refine ⟨vs, h.1.symm, ?_⟩
        have hlen := zeroThread_length
          (fun t1 id1 h1 => typeZeroValue fuel t1 refs id1 h1)
          id args.dropLast 1 (id :: hist) vs h3 hz
        rw [List.length_dropLast] at hlen
        exact hlen

/-- C7 witness: a 1-argument array type's zero value is the empty
sequence, and a 2-argument array type's zero value, when defined, has
exactly one element. -/
theorem c7_array_zero_min_length_witness :
    typeZeroValue 1 (.array [.integerT]) [] [] [] = .ok (.arr [], [([] : PathArray)]) :=
  (c7_array_zero_min_length 0 .integerT [] [] [] [] (by simp)).1

/-- C7 counterexample: the zero value of
`['array', 'integer', 'string']` (a variable-length array type with
`n = 2` argument types) is `[0]`, not the empty sequence the claim
requires. -/
theorem c7_array_zero_not_empty :
    zeroValue 3 [] (.array [.integerT, .stringT]) = .ok (.arr [.num 0]) ∧
    Value.arr [.num 0] ≠ Value.arr [] := by
  constructor
  · rfl
  · simp

/-- C2: the diamond-sharing document is a valid, non-recursive schema
(each `ref` is used once per branch, with no cycle), a single reference
to the label computes a zero value fine, and the value
`[[0], [0]]` — the zero value the claim promises — validates against
the schema; yet `zeroValue` throws, because the visitation set keyed by
node identity is never cleared after a defining call completes, so the
second (non-cyclic) visit of the same `let` body is mistaken for a
cycle. -/
theorem c2_zero_value_diamond_bug :
    (isSchema 6 true diamondDoc).1 = true ∧
    zeroValue 6 diamondRefs (.tuple [.ref "A"]) = .ok (.arr [.arr [.num 0]]) ∧
    (∃ e, zeroValue 6 diamondRefs diamondRoot = .error e) ∧
    matchesSchemaErrors 6 diamondRefs diamondRoot (.arr [.arr [.num 0], .arr [.num 0]]) = [] := by
  refine ⟨rfl, rfl, ⟨.tuple [.integerT], ?_⟩, rfl⟩
  rfl

end Spartan

namespace Spartan

/-- `walkArray` on an empty value list yields no errors. -/
theorem walkArray_nil_xs (f : SchemaType → PathArray → Value → PathArray → List ValidationError)
    (sp dp : PathArray) (rem : List SchemaType) (j i : Nat) :
    walkArray f sp dp rem j [] i = [] := by
  cases rem with
  | nil => rfl
  | cons a rest => cases rest <;> rfl

/-- `walkArray` with at least two remaining argument types consumes the
head positionally and advances. -/
theorem walkArray_cons (f : SchemaType → PathArray → Value → PathArray → List ValidationError)
    (sp dp : PathArray) (p lastT : SchemaType) (pre2 : List SchemaType) (j i : Nat)
    (x : Value) (xs : List Value) :
    walkArray f sp dp ((p :: pre2) ++ [lastT]) j (x :: xs) i =
      f p (sp ++ [.idx (j + 1)]) x (dp ++ [.idx i]) ++
        walkArray f sp dp (pre2 ++ [lastT]) (j + 1) xs (i + 1) := by
  cases pre2 <;> rfl

/-- The element loop of the `array` validator succeeds exactly when
every element passes its assigned argument type: positionally for the
first `pre.length` elements, the last argument type (held at argument
index `pre.length`) for all later elements. -/
theorem walkArray_eq_nil_iff
    (f : SchemaType → PathArray → Value → PathArray → List ValidationError)
    (sp dp : PathArray) (lastT : SchemaType) :
    ∀ (xs : List Value) (pre : List SchemaType) (j i : Nat),
      walkArray f sp dp (pre ++ [lastT]) j xs i = [] ↔
        ∀ (k : Nat) (hk : k < xs.length),
          f (pre.getD k lastT) (sp ++ [.idx (j + min k pre.length + 1)])
            (xs.get ⟨k, hk⟩) (dp ++ [.idx (i + k)]) = [] := by
  intro xs
  induction xs with
  | nil =>
      intro pre j i
      rw [walkArray_nil_xs]
      simp
  | cons x xs ih =>
      intro pre j i
      cases pre with
      | nil =>
          have hstep :
              walkArray f sp dp ([] ++ [lastT]) j (x :: xs) i =
                f lastT (sp ++ [.idx (j + 1)]) x (dp ++ [.idx i]) ++
                  walkArray f sp dp ([] ++ [lastT]) j xs (i + 1) := rfl
          rw [hstep, List.append_eq_nil, ih [] j (i + 1)]
          constructor
          · rintro ⟨hhead, htail⟩ k hk
            match k with
            | 0 => simpa using hhead
            | k' + 1 =>
                have := htail k' (by simpa using hk)
                simpa [Nat.add_comm, Nat.add_assoc, Nat.add_left_comm] using this
          · intro h
            refine ⟨by simpa using h 0 (by simp), fun k hk => ?_⟩
            have := h (k + 1) (by simpa using hk)
            simpa [Nat.add_comm, Nat.add_assoc, Nat.add_left_comm] using this
      | cons p pre2 =>
          rw [walkArray_cons, List.append_eq_nil, ih pre2 (j + 1) (i + 1)]
          constructor
          · rintro ⟨hhead, htail⟩ k hk
            match k with
            | 0 => simpa using hhead
            | k' + 1 =>
                have := htail k' (by simpa using hk)
                simp only [List.getD_cons_succ, List.length_cons, List.get_cons_succ,
                  Nat.succ_min_succ]
                simpa [Nat.add_comm, Nat.add_assoc, Nat.add_left_comm] using this
          · intro h
            refine ⟨by simpa using h 0 (by simp), fun k hk => ?_⟩
            have := h (k + 1) (by simpa using hk)
            simp only [List.getD_cons_succ, List.length_cons, List.get_cons_succ,
              Nat.succ_min_succ] at this
            simpa [Nat.add_comm, Nat.add_assoc, Nat.add_left_comm] using this

/-- C1: an array type with argument types `pre ++ [lastT]` matches a
value exactly when the value is a sequence of at least `pre.length`
(that is, `N - 1`) elements whose first `pre.length` elements match the
corresponding argument type positionally and whose elements from index
`pre.length` on match the last argument type; and in particular the
schema `["array", ["tuple","integer"], ["tuple","string","string","boolean"]]`
matches `[[1]]` and `[[2],["a","b",true]]` but not `[[1],[2]]`. -/
theorem c1_array_suffix_semantics (fuel : Nat) (pre : List SchemaType) (lastT : SchemaType)
    (refs : List (String × SchemaType)) (sp dp : PathArray) (v : Value) :
    (validateSchemaType (fuel + 1) (.array (pre ++ [lastT])) refs sp v dp = [] ↔
      ∃ xs : List Value, v = .arr xs ∧ pre.length ≤ xs.length ∧
        ∀ (k : Nat) (hk : k < xs.length),
          validateSchemaType fuel (pre.getD k lastT) refs
            (sp ++ [.idx (min k pre.length + 1)]) (xs.get ⟨k, hk⟩) (dp ++ [.idx k]) = []) ∧
    matchesSchemaErrors 4 [] tuplesSchemaL (.arr [.arr [.num 1]]) = [] ∧
    matchesSchemaErrors 4 [] tuplesSchemaL
      (.arr [.arr [.num 2], .arr [.str "a", .str "b", .bool true]]) = [] ∧
    matchesSchemaErrors 4 [] tuplesSchemaL (.arr [.arr [.num 1], .arr [.num 2]]) ≠ [] := by
  have harr : ∀ xs : List Value,
      validateSchemaType (fuel + 1) (.array (pre ++ [lastT])) refs sp (.arr xs) dp =
        if xs.length + 1 < (pre ++ [lastT]).length then
          [mkVE dp sp ("expected array of at least " ++ toString ((pre ++ [lastT]).length - 1) ++
            " values, got " ++ toString xs.length)]
        else
          walkArray (fun t sp1 v1 dp1 => validateSchemaType fuel t refs sp1 v1 dp1)
            sp dp (pre ++ [lastT]) 0 xs 0 := fun _ => rfl
  refine ⟨?_, rfl, rfl, ?_⟩
  · constructor
    · intro h
      cases v with
      | arr xs =>
          rw [harr xs] at h
          have hlen : ¬xs.length + 1 < (pre ++ [lastT]).length := by
            by_contra hc
            rw [if_pos hc] at h
            exact (List.cons_ne_nil _ _ h).elim
          rw [if_neg hlen] at h
          refine ⟨xs, rfl, by simp at hlen; omega, ?_⟩
          have := (walkArray_eq_nil_iff _ sp dp lastT xs pre 0 0).mp h
          intro k hk
          simpa using this k hk
      | null => exact (List.cons_ne_nil _ _ h).elim
      | bool b => exact (List.cons_ne_nil _ _ h).elim
      | num q => exact (List.cons_ne_nil _ _ h).elim
      | str s => exact (List.cons_ne_nil _ _ h).elim
      | date d => exact (List.cons_ne_nil _ _ h).elim
      | binary b => exact (List.cons_ne_nil _ _ h).elim
      | obj kvs => exact (List.cons_ne_nil _ _ h).elim
    · rintro ⟨xs, rfl, hge, hall⟩
      rw [harr xs, if_neg (by simp; omega)]
      refine (walkArray_eq_nil_iff _ sp dp lastT xs pre 0 0).mpr ?_
      intro k hk
      simpa using hall k hk
  · intro h
    exact absurd (congrArg List.length h) (by decide)

end Spartan

namespace Spartan

/-- When some alternative accepts the value, `walkOneof` reports
success. -/
theorem walkOneof_none
    (f : SchemaType → PathArray → Value → PathArray → List ValidationError)
    (sp : PathArray) (v : Value) (dp : PathArray) :
    ∀ (alts : List SchemaType) (j k : Nat) (hk : k < alts.length),
      f (alts.get ⟨k, hk⟩) (sp ++ [.idx (j + k)]) v dp = [] →
        walkOneof f sp v dp alts j = none := by
  intro alts
  induction alts with
  | nil => intro j k hk; exact absurd hk (by simp)
  | cons a rest ih =>
      intro j k hk h
      match k with
      | 0 =>
          simp only [List.get] at h
          simp only [walkOneof]
          rw [show j + 0 = j from rfl] at h
          rw [h]
          simp
      | k' + 1 =>
          simp only [walkOneof]
          have htail := ih (j + 1) k' (by simpa using hk)
            (by simpa [Nat.add_comm, Nat.add_assoc, Nat.add_left_comm] using h)
          rw [htail]
          split <;> rfl

/-- When every alternative rejects the value, `walkOneof` collects one
failure list per alternative, in declaration order. -/
theorem walkOneof_some
    (f : SchemaType → PathArray → Value → PathArray → List ValidationError)
    (sp : PathArray) (v : Value) (dp : PathArray) :
    ∀ (alts : List SchemaType) (j : Nat),
      (∀ (k : Nat) (hk : k < alts.length), f (alts.get ⟨k, hk⟩) (sp ++ [.idx (j + k)]) v dp ≠ []) →
        walkOneof f sp v dp alts j =
          some ((List.range alts.length).map fun k =>
            f (alts.getD k .nullV) (sp ++ [.idx (j + k)]) v dp) := by
  intro alts
  induction alts with
  | nil => intro j h; rfl
  | cons a rest ih =>
      intro j h
      have hhead := h 0 (by simp)
      simp only [List.get] at hhead
      rw [show j + 0 = j from rfl] at hhead
      simp only [walkOneof]
      rw [if_neg (by simpa [List.isEmpty_iff] using hhead)]
      have htail := ih (j + 1) (fun k hk => by
        have := h (k + 1) (by simpa using hk)
        simpa [Nat.add_comm, Nat.add_assoc, Nat.add_left_comm] using this)
      rw [htail]
      simp only [List.length_cons, List.range_succ_eq_map, List.map_cons, List.map_map]
      refine congrArg some (congrArg₂ List.cons (by simp) ?_)
      apply List.map_congr_left
      intro k hk
      have harith : j + 1 + k = j + (k + 1) := by omega
      simp [Function.comp, harith]

end Spartan

namespace Spartan

/-- `altFailureLists` spelled as a map over alternative indices. -/
theorem altFailureLists_eq_map (fuel : Nat) (refs : List (String × SchemaType))
    (sp : PathArray) (v : Value) (dp : PathArray) :
    ∀ (alts : List SchemaType) (j : Nat),
      altFailureLists fuel refs sp v dp alts j =
        (List.range alts.length).map fun k =>
          validateSchemaType fuel (alts.getD k .nullV) refs (sp ++ [.idx (j + k)]) v dp := by
  intro alts
  induction alts with
  | nil => intro j; rfl
  | cons a rest ih =>
      intro j
      simp only [altFailureLists, List.length_cons, List.range_succ_eq_map, List.map_cons,
        List.map_map, ih (j + 1)]
      refine congrArg₂ List.cons (by simp) ?_
      apply List.map_congr_left
      intro k hk
      have harith : j + 1 + k = j + (k + 1) := by omega
      simp [Function.comp, harith]

/-- C6: a `oneof` type accepts a value as soon as one alternative does,
and on total failure it reports exactly one mismatch, located at the
value's data path, whose children are the alternatives' failure lists in
declaration order. -/
theorem c6_oneof_failure_children (fuel : Nat) (alts : List SchemaType)
    (refs : List (String × SchemaType)) (sp : PathArray) (v : Value) (dp : PathArray) :
    ((∃ (k : Nat) (hk : k < alts.length),
        validateSchemaType fuel (alts.get ⟨k, hk⟩) refs (sp ++ [.idx (k + 1)]) v dp = []) →
      validateSchemaType (fuel + 1) (.oneof alts) refs sp v dp = []) ∧
    ((∀ (k : Nat) (hk : k < alts.length),
        validateSchemaType fuel (alts.get ⟨k, hk⟩) refs (sp ++ [.idx (k + 1)]) v dp ≠ []) →
      validateSchemaType (fuel + 1) (.oneof alts) refs sp v dp =
        [.mk dp sp ("all " ++ toString alts.length ++ " options failed")
          (altFailureLists fuel refs sp v dp alts 1)]) := by
  have hdef : validateSchemaType (fuel + 1) (.oneof alts) refs sp v dp =
      (match walkOneof (fun t sp1 v1 dp1 => validateSchemaType fuel t refs sp1 v1 dp1)
          sp v dp alts 1 with
       | none => []
       | some cs => [.mk dp sp ("all " ++ toString alts.length ++ " options failed") cs]) := rfl
  constructor
  · rintro ⟨k, hk, hok⟩
    rw [hdef, walkOneof_none _ sp v dp alts 1 k hk (by simpa [Nat.add_comm] using hok)]
  · intro hfail
    rw [hdef, walkOneof_some _ sp v dp alts 1
      (fun k hk => by simpa [Nat.add_comm] using hfail k hk)]
    rw [altFailureLists_eq_map]

/-- C6 witness: the oneof type `["oneof","string"]` applied to the
number 3 yields a single failure at the root data path carrying one
child failure list for its single alternative. -/
theorem c6_oneof_failure_children_witness :
    validateSchemaType 2 (.oneof [.stringT]) [] [.key "schema"] (.num 3) [] =
      [.mk [] [.key "schema"] ("all " ++ toString (1 : Nat) ++ " options failed")
        (altFailureLists 1 [] [.key "schema"] (.num 3) [] [.stringT] 1)] :=
  (c6_oneof_failure_children 1 [.stringT] [] [.key "schema"] (.num 3) []).2
    (fun k hk =>
      match k, hk with
      | 0, _ => fun heq => List.cons_ne_nil _ _ heq
      | k + 1, hk => absurd (Nat.lt_of_succ_lt_succ hk) (Nat.not_lt_zero k))

end Spartan

namespace Spartan

/-- Association lookup skips a leading binding for a different key. -/
theorem lookupStr_cons_ne {α : Type} (k1 k : String) (w : α) (kvs : List (String × α))
    (h : k1 ≠ k) : lookupStr ((k1, w) :: kvs) k = lookupStr kvs k := by
  simp only [lookupStr]
  rw [if_neg h]

/-- A key absent from the key list is absent from the lookup. -/
theorem lookupStr_eq_none_of_not_mem {α : Type} (k : String) :
    ∀ kvs : List (String × α), k ∉ kvs.map Prod.fst → lookupStr kvs k = none := by
  intro kvs
  induction kvs with
  | nil => intro _; rfl
  | cons p rest ih =>
      intro h
      simp only [List.map_cons, List.mem_cons] at h
      push_neg at h
      obtain ⟨p1, p2⟩ := p
      simp only [lookupStr]
      rw [if_neg (by simpa using fun hc => h.1 hc.symm), ih h.2]

/-- The later variant's object-field loop only ever looks declared keys
up, so a binding for an undeclared key is invisible to it. -/
theorem walkFields_extra (f : SchemaType → PathArray → Value → PathArray → List ValidationError)
    (sp dp : PathArray) (k1 : String) (w : Value) (kvs : List (String × Value)) :
    ∀ entries : List (String × Bool × SchemaType),
      (∀ e ∈ entries, e.1 ≠ k1) →
      walkFields f sp dp ((k1, w) :: kvs) entries = walkFields f sp dp kvs entries := by
  intro entries
  induction entries with
  | nil => intro _; rfl
  | cons e rest ih =>
      intro h
      obtain ⟨k, isOpt, t⟩ := e
      have hk : k1 ≠ k := fun hc => (h (k, isOpt, t) (by simp)) hc.symm
      simp only [walkFields]
      rw [lookupStr_cons_ne _ _ _ _ hk, ih (fun e he => h e (by simp [he]))]

end Spartan

namespace Classic

open Spartan (lookupStr lookupStr_cons_ne Value Step PathArray)

/-- The earlier variant's declared-field loop only ever looks declared
keys up, so a binding for an undeclared key is invisible to it. -/
theorem vFields_extra (o : VOpts) (k1 : String) (w : Value) (kvs : List (String × Value)) :
    ∀ entries : List (String × CSchema),
      (∀ e ∈ entries, e.1 ≠ k1) →
      vFields entries o ((k1, w) :: kvs) = vFields entries o kvs := by
  intro entries
  induction entries with
  | nil => intro _; rfl
  | cons e rest ih =>
      intro h
      obtain ⟨k, t⟩ := e
      have hk : k1 ≠ k := fun hc => (h (k, t) (by simp)) hc.symm
      simp only [vFields]
      rw [lookupStr_cons_ne _ _ _ _ hk, ih (fun e he => h e (by simp [he]))]

end Classic

namespace Spartan

/-- C9 (amended): in the later (root/let/ref) variant, keys of a value
that are not declared in the object type never produce a validation
mismatch — the validator has no strict mode at all.  In the earlier
class-based variant the default is the opposite: an unmapped key makes
the object itself a mismatch unless the caller opts out via
`allowExtraFields`, under which undeclared keys are again invisible. -/
theorem c9_unknown_keys (fuel : Nat) (entries : List (String × Bool × SchemaType))
    (refs : List (String × SchemaType)) (sp dp : PathArray)
    (k1 : String) (w : Value) (kvs : List (String × Value))
    (cent : List (String × Classic.CSchema)) (o : Classic.VOpts) :
    (k1 ∉ entries.map (fun e => e.1) →
      validateSchemaType fuel (.object entries) refs sp (.obj ((k1, w) :: kvs)) dp =
        validateSchemaType fuel (.object entries) refs sp (.obj kvs) dp) ∧
    (k1 ∉ cent.map Prod.fst → o.allowExtraFields = true →
      Classic.validate (.object cent) (.obj ((k1, w) :: kvs)) o =
        Classic.validate (.object cent) (.obj kvs) o) ∧
    (o.allowExtraFields = false → (∃ kv ∈ kvs, kv.1 ∉ cent.map Prod.fst) →
      Classic.TypeMismatch.mk (.object cent) (.obj kvs) o.path ∈
        Classic.validate (.object cent) (.obj kvs) o) := by
  refine ⟨?_, ?_, ?_⟩
  · intro h
    match fuel with
    | 0 => rfl
    | fuel + 1 =>
        have hstep : ∀ kvs1 : List (String × Value),
            validateSchemaType (fuel + 1) (.object entries) refs sp (.obj kvs1) dp =
              walkFields (fun t sp1 v1 dp1 => validateSchemaType fuel t refs sp1 v1 dp1)
                sp dp kvs1 entries := fun _ => rfl
        rw [hstep, hstep, walkFields_extra]
        intro e he hc
        exact h (by simp only [List.mem_map]; exact ⟨e, he, hc⟩)
  · intro h hextra
    have hstep : ∀ kvs1 : List (String × Value),
        Classic.validate (.object cent) (.obj kvs1) o =
          Classic.vFields cent o kvs1 ++
            (if !o.allowExtraFields && !(kvs1.all fun kv => Classic.hasEntry cent kv.1) then
              [⟨.object cent, .obj kvs1, o.path⟩]
            else []) := fun _ => rfl
    rw [hstep, hstep, hextra]
    simp only [Bool.not_true, Bool.false_and, if_neg (by simp : ¬(false = true))]
    rw [Classic.vFields_extra]
    intro e he hc
    exact h (by simp only [List.mem_map]; exact ⟨e, he, hc⟩)
  · intro hdef ⟨kv, hmem, hnot⟩
    have hstep :
        Classic.validate (.object cent) (.obj kvs) o =
          Classic.vFields cent o kvs ++
            (if !o.allowExtraFields && !(kvs.all fun kv => Classic.hasEntry cent kv.1) then
              [⟨.object cent, .obj kvs, o.path⟩]
            else []) := rfl
    rw [hstep, hdef]
    have hall : (kvs.all fun kv => Classic.hasEntry cent kv.1) = false := by
      rw [List.all_eq_false]
      refine ⟨kv, hmem, ?_⟩
      simp only [Classic.hasEntry, lookupStr_eq_none_of_not_mem _ _ hnot, Option.isSome_none,
        Bool.false_eq_true, not_false_eq_true]
    rw [hall]
    simp

/-- C9 counterexample: in the earlier class-based variant, validating
`{a: 1, b: 2}` against the object type `{a: integer}` with default
options yields one mismatch (for the unmapped key `b`), not the empty
list the claim promises by default; the same call with
`allowExtraFields` yields none. -/
theorem c9_extra_key_rejected_by_default :
    Classic.validate (.object [("a", .integerT)]) (.obj [("a", .num 1), ("b", .num 2)])
        {} =
      [⟨.object [("a", .integerT)], .obj [("a", .num 1), ("b", .num 2)], []⟩] ∧
    Classic.validate (.object [("a", .integerT)]) (.obj [("a", .num 1), ("b", .num 2)])
        { allowExtraFields := true } = [] := by
  constructor
  · rfl
  · rfl

/-- C9 witness: the unmapped key `b` makes `{a: 1, b: 2}` itself a
mismatch under default options in the earlier variant. -/
theorem c9_unknown_keys_witness :
    Classic.TypeMismatch.mk (.object [("a", .integerT)])
        (.obj [("a", .num 1), ("b", .num 2)]) [] ∈
      Classic.validate (.object [("a", .integerT)])
        (.obj [("a", .num 1), ("b", .num 2)]) {} :=
  (c9_unknown_keys 1 [] [] [] [] "b" (.num 2) [("a", .num 1), ("b", .num 2)]
      [("a", .integerT)] {}).2.2 rfl
    ⟨("b", .num 2), by simp, by simp⟩

end Spartan

namespace Classic

/-- Scalar nodes have a fixed shape. -/
theorem scalar_hasFixedShape : ∀ s : CSchema, isScalar s = true → hasFixedShape s = true := by
  intro s h
  cases s <;> first
    | rfl
    | exact absurd h (by simp [isScalar])

/-- Scalar nodes reach only themselves. -/
theorem scalar_reaches : ∀ s u : CSchema, isScalar s = true → Reaches s u → u = s := by
  intro s u h hr
  cases hr with
  | refl => rfl
  | oneofAlt hm hr2 => exact absurd h (by simp [isScalar])
  | arrayElem hr2 => exact absurd h (by simp [isScalar])
  | dictVal hr2 => exact absurd h (by simp [isScalar])
  | objField hm hr2 => exact absurd h (by simp [isScalar])

/-- Inversion of `Reaches` at an array node. -/
theorem reaches_array_iff (t u : CSchema) :
    Reaches (.array t) u ↔ (u = .array t ∨ Reaches t u) := by
  constructor
  · intro h
    cases h with
    | refl => exact Or.inl rfl
    | arrayElem h2 => exact Or.inr h2
  · rintro (rfl | h)
    · exact .refl _
    · exact .arrayElem h

/-- Inversion of `Reaches` at a dictionary node. -/
theorem reaches_dict_iff (t u : CSchema) :
    Reaches (.dictionary t) u ↔ (u = .dictionary t ∨ Reaches t u) := by
  constructor
  · intro h
    cases h with
    | refl => exact Or.inl rfl
    | dictVal h2 => exact Or.inr h2
  · rintro (rfl | h)
    · exact .refl _
    · exact .dictVal h

/-- Inversion of `Reaches` at a `oneof` node. -/
theorem reaches_oneof_iff (ts : List CSchema) (u : CSchema) :
    Reaches (.oneof ts) u ↔ (u = .oneof ts ∨ ∃ t ∈ ts, Reaches t u) := by
  constructor
  · intro h
    cases h with
    | refl => exact Or.inl rfl
    | oneofAlt hm h2 => exact Or.inr ⟨_, hm, h2⟩
  · rintro (rfl | ⟨t, hm, h⟩)
    · exact .refl _
    · exact .oneofAlt hm h

/-- Inversion of `Reaches` at an object node. -/
theorem reaches_object_iff (es : List (String × CSchema)) (u : CSchema) :
    Reaches (.object es) u ↔ (u = .object es ∨ ∃ p ∈ es, Reaches p.2 u) := by
  constructor
  · intro h
    cases h with
    | refl => exact Or.inl rfl
    | objField hm h2 => exact Or.inr ⟨_, hm, h2⟩
  · rintro (rfl | ⟨⟨k, t⟩, hm, h⟩)
    · exact .refl _
    · exact .objField hm h

/-- `NoAmbiguous` holds of every scalar node. -/
theorem scalar_noAmbiguous : ∀ s : CSchema, isScalar s = true → NoAmbiguous s := by
  intro s h
  constructor
  · intro u hr
    rw [scalar_reaches s u h hr]
    intro hc
    rw [hc] at h
    simp [isScalar] at h
  · intro ts hr
    have := scalar_reaches s _ h hr
    rw [← this] at h
    simp [isScalar] at h

/-- The `allScalarFixed` loop succeeds exactly when every listed
subtype is a scalar (whose shape is then automatically fixed). -/
theorem allScalarFixed_iff (ts : List CSchema) :
    allScalarFixed ts = true ↔ ∀ t ∈ ts, isScalar t = true := by
  induction ts with
  | nil => simp [allScalarFixed]
  | cons t rest ih =>
      simp only [allScalarFixed, Bool.and_eq_true, ih]
      constructor
      · rintro ⟨⟨h1, _⟩, h3⟩ u hu
        rcases List.mem_cons.mp hu with rfl | hu2
        · exact h1
        · exact h3 u hu2
      · intro h
        exact ⟨⟨h t (by simp), scalar_hasFixedShape t (h t (by simp))⟩,
          fun u hu => h u (by simp [hu])⟩

mutual

/-- C4's amended characterization, by structural recursion: the code's
`hasFixedShape` is true exactly when no `any` node is reachable and
every reachable `oneof` has only scalar alternatives. -/
theorem hasFixedShape_iff_noAmbiguous :
    ∀ s : CSchema, hasFixedShape s = true ↔ NoAmbiguous s
  | .stringT => by simpa [hasFixedShape] using scalar_noAmbiguous .stringT rfl
  | .floatT => by simpa [hasFixedShape] using scalar_noAmbiguous .floatT rfl
  | .integerT => by simpa [hasFixedShape] using scalar_noAmbiguous .integerT rfl
  | .binaryT => by simpa [hasFixedShape] using scalar_noAmbiguous .binaryT rfl
  | .dateT => by simpa [hasFixedShape] using scalar_noAmbiguous .dateT rfl
  | .booleanT => by simpa [hasFixedShape] using scalar_noAmbiguous .booleanT rfl
  | .nullT => by simpa [hasFixedShape] using scalar_noAmbiguous .nullT rfl
  | .enumT ms => by simpa [hasFixedShape] using scalar_noAmbiguous (.enumT ms) rfl
  | .anyT => by
      simp only [hasFixedShape, Bool.false_eq_true, false_iff]
      rintro ⟨h1, _⟩
      exact h1 .anyT (.refl _) rfl
  | .oneof ts => by
      rw [show hasFixedShape (.oneof ts) = allScalarFixed ts from rfl, allScalarFixed_iff]
      constructor
      · intro h
        constructor
        · intro u hr
          rcases (reaches_oneof_iff ts u).mp hr with rfl | ⟨t, hm, h2⟩
          · simp
          · rw [scalar_reaches t u (h t hm) h2]
            intro hc
            have := h t hm
            rw [hc] at this
            simp [isScalar] at this
        · intro ts2 hr
          rcases (reaches_oneof_iff ts _).mp hr with heq | ⟨t, hm, h2⟩
          · cases heq
            exact h
          · have := scalar_reaches t _ (h t hm) h2
            have h3 := h t hm
            rw [← this] at h3
            simp [isScalar] at h3
      · rintro ⟨_, h2⟩
        exact h2 ts (.refl _)
  | .array t => by
      rw [show hasFixedShape (.array t) = hasFixedShape t from rfl,
        hasFixedShape_iff_noAmbiguous t]
      constructor
      · rintro ⟨h1, h2⟩
        constructor
        · intro u hr
          rcases (reaches_array_iff t u).mp hr with rfl | h3
          · simp
          · exact h1 u h3
        · intro ts hr
          rcases (reaches_array_iff t _).mp hr with heq | h3
          · cases heq
          · exact h2 ts h3
      · rintro ⟨h1, h2⟩
        exact ⟨fun u h3 => h1 u ((reaches_array_iff t u).mpr (Or.inr h3)),
          fun ts h3 => h2 ts ((reaches_array_iff t _).mpr (Or.inr h3))⟩
  | .dictionary t => by
      rw [show hasFixedShape (.dictionary t) = hasFixedShape t from rfl,
        hasFixedShape_iff_noAmbiguous t]
      constructor
      · rintro ⟨h1, h2⟩
        constructor
        · intro u hr
          rcases (reaches_dict_iff t u).mp hr with rfl | h3
          · simp
          · exact h1 u h3
        · intro ts hr
          rcases (reaches_dict_iff t _).mp hr with heq | h3
          · cases heq
          · exact h2 ts h3
      · rintro ⟨h1, h2⟩
        exact ⟨fun u h3 => h1 u ((reaches_dict_iff t u).mpr (Or.inr h3)),
          fun ts h3 => h2 ts ((reaches_dict_iff t _).mpr (Or.inr h3))⟩
  | .object es => by
      rw [show hasFixedShape (.object es) = allFieldsFixed es from rfl,
        allFieldsFixed_iff_noAmbiguous es]
      constructor
      · intro h
        constructor
        · intro u hr
          rcases (reaches_object_iff es u).mp hr with rfl | ⟨p, hm, h2⟩
          · simp
          · exact (h p hm).1 u h2
        · intro ts hr
          rcases (reaches_object_iff es _).mp hr with heq | ⟨p, hm, h2⟩
          · cases heq
          · exact (h p hm).2 ts h2
      · rintro ⟨h1, h2⟩ p hm
        exact ⟨fun u h3 => h1 u ((reaches_object_iff es u).mpr (Or.inr ⟨p, hm, h3⟩)),
          fun ts h3 => h2 ts ((reaches_object_iff es _).mpr (Or.inr ⟨p, hm, h3⟩))⟩

/-- The object-entry loop of `hasFixedShape`, characterized over the
reachable nodes of each field type. -/
theorem allFieldsFixed_iff_noAmbiguous :
    ∀ es : List (String × CSchema), allFieldsFixed es = true ↔ ∀ p ∈ es, NoAmbiguous p.2
  | [] => by simp [allFieldsFixed]
  | (k, t) :: rest => by
      rw [show allFieldsFixed ((k, t) :: rest) = (hasFixedShape t && allFieldsFixed rest)
        from rfl]
      simp only [Bool.and_eq_true, hasFixedShape_iff_noAmbiguous t,
        allFieldsFixed_iff_noAmbiguous rest]
      constructor
      · rintro ⟨h1, h2⟩ p hm
        rcases List.mem_cons.mp hm with rfl | hm2
        · exact h1
        · exact h2 p hm2
      · intro h
        exact ⟨h (k, t) (by simp), fun p hm => h p (by simp [hm])⟩

end

end Classic

namespace Classic

/-- C4 (amended): `hasFixedShape()` returns true iff no `any`-type node
is reachable and every reachable `oneof` node has only scalar
alternatives — a strictly stronger condition than the claim's
"no oneof mixes shape categories": any non-scalar alternative (object,
array, dictionary, even alone or same-category) already defeats it. -/
theorem c4_has_fixed_shape (s : CSchema) : hasFixedShape s = true ↔ NoAmbiguous s :=
  hasFixedShape_iff_noAmbiguous s

/-- C4 counterexample: the `oneof` of two object types satisfies the
claim's condition (its alternatives are of the same shape category and
no `any` is reachable) yet `hasFixedShape()` returns false, because the
code requires every alternative of a `oneof` to be a scalar. -/
theorem c4_same_category_oneof_not_fixed :
    SpecFixedShape (.oneof [.object [], .object []]) ∧
    hasFixedShape (.oneof [.object [], .object []]) = false := by
  constructor
  · constructor
    · intro u hr
      rcases (reaches_oneof_iff _ u).mp hr with rfl | ⟨t, hm, h2⟩
      · simp
      · simp only [List.mem_cons, List.not_mem_nil, or_false] at hm
        have ht : t = .object [] := by
          rcases hm with rfl | hm2
          · rfl
          · simpa using hm2
        rw [ht] at h2
        rcases (reaches_object_iff [] u).mp h2 with rfl | ⟨p, hp, _⟩
        · simp
        · simp at hp
    · intro ts hr t1 h1 t2 h2 c1 c2 hc1 hc2
      rcases (reaches_oneof_iff _ _).mp hr with heq | ⟨t, hm, h2'⟩
      · have hts : ts = [.object [], .object []] := by
          injection heq
        rw [hts] at h1 h2
        simp only [List.mem_cons, List.not_mem_nil, or_false] at h1 h2
        have ht1 : t1 = .object [] := by
          rcases h1 with rfl | h1b
          · rfl
          · simpa using h1b
        have ht2 : t2 = .object [] := by
          rcases h2 with rfl | h2b
          · rfl
          · simpa using h2b
        rw [ht1] at hc1
        rw [ht2] at hc2
        simp only [shapeCat, isScalar] at hc1 hc2
        simp only [Bool.false_eq_true, if_false] at hc1 hc2
        cases hc1
        cases hc2
        rfl
      · simp only [List.mem_cons, List.not_mem_nil, or_false] at hm
        have ht : t = .object [] := by
          rcases hm with rfl | hm2
          · rfl
          · simpa using hm2
        rw [ht] at h2'
        rcases (reaches_object_iff [] _).mp h2' with heq2 | ⟨p, hp, _⟩
        · cases heq2
        · simp at hp
  · rfl

end Classic

namespace Classic

open Spartan (Step)

/-- `atPathLoop` with a longer path, stepped once. -/
theorem atPathLoop_cons (s0 : CSchema) (st : Step) (rest sofar : List Step) :
    atPathLoop (some s0) (st :: rest) sofar =
      (match child s0 st with
       | .error _ => .error (sofar ++ [st])
       | .ok next => atPathLoop next rest (sofar ++ [st])) := rfl

/-- The walk never fails from an undefined node. -/
theorem atPathLoop_none (p sofar : List Step) :
    ∀ e, atPathLoop none p sofar ≠ .error e := by
  intro e
  cases p <;> simp [atPathLoop]

/-- When the `atPath` walk raises an ambiguous-path error, the error
path is the walked prefix of the requested path, up to and including
the step at which some node's `child` threw; the walk up to just before
that step succeeds and lands on that node. -/
theorem atPathLoop_error_char :
    ∀ (p : List Step) (s0 : CSchema) (sofar e : List Step),
      atPathLoop (some s0) p sofar = .error e →
        ∃ (n : Nat) (hn : n < p.length) (sc : CSchema) (msg : List Step),
          e = sofar ++ p.take (n + 1) ∧
          atPathLoop (some s0) (p.take n) sofar = .ok (some sc) ∧
          child sc (p.get ⟨n, hn⟩) = .error msg := by
  intro p
  induction p with
  | nil => intro s0 sofar e h; cases h
  | cons st rest ih =>
      intro s0 sofar e h
      rw [atPathLoop_cons] at h
      cases hc : child s0 st with
      | error msg =>
          rw [hc] at h
          cases h
          exact ⟨0, by simp, s0, msg, by simp, rfl, by simpa using hc⟩
      | ok next =>
          rw [hc] at h
          cases next with
          | none => exact absurd h (atPathLoop_none _ _ _)
          | some s1 =>
              obtain ⟨n, hn, sc, msg, he, hwalk, hchild⟩ := ih s1 (sofar ++ [st]) e h
              refine ⟨n + 1, by simpa using hn, sc, msg, ?_, ?_, ?_⟩
              · rw [he]
                simp [List.take_succ_cons]
              · rw [List.take_succ_cons, atPathLoop_cons, hc]
                exact hwalk
              · simpa using hchild

/-- C8 (amended): path lookup either returns a sub-schema, returns
absent, or raises an `AmbiguousPathError`; when it raises, the error's
recorded path is the *walked prefix* of the requested path, up to and
including the step at which the ambiguous node (a `oneof` without fixed
shape, or `any`) was queried — not the remaining sub-path the claim
describes. -/
theorem c8_at_path_error_is_walked_prefix (s : CSchema) (p e : List Step)
    (h : atPath s p = .error e) :
    ∃ (n : Nat) (hn : n < p.length) (sc : CSchema) (msg : List Step),
      e = p.take (n + 1) ∧
      atPath s (p.take n) = .ok (some sc) ∧
      child sc (p.get ⟨n, hn⟩) = .error msg := by
  rw [atPath] at h
  by_cases hs : isScalar s = true
  · rw [if_pos hs] at h
    cases h
  · rw [if_neg hs] at h
    obtain ⟨n, hn, sc, msg, he, hwalk, hchild⟩ := atPathLoop_error_char p s [] e h
    refine ⟨n, hn, sc, msg, by simpa using he, ?_, hchild⟩
    rw [atPath, if_neg hs]
    exact hwalk

/-- C8 counterexample: walking `$.a.b.c` hits the ambiguous `oneof` at
step `b`; the recorded path is the walked prefix `['a','b']`, which is
not the remaining sub-path `['b','c']` at the point the ambiguous node
was reached. -/
theorem c8_error_path_not_remaining_subpath :
    atPath c8Schema [.key "a", .key "b", .key "c"] = .error [.key "a", .key "b"] ∧
    ([.key "a", .key "b"] : List Step) ≠ [.key "b", .key "c"] := by
  constructor
  · rfl
  · simp

/-- C8 witness: the characterization applied to the example walk:
ambiguity was detected at step index 1, after walking `['a','b']`. -/
theorem c8_at_path_error_witness :
    ∃ (n : Nat) (hn : n < ([Step.key "a", .key "b", .key "c"] : List Step).length)
      (sc : CSchema) (msg : List Step),
      ([Step.key "a", .key "b"] : List Step) =
        ([Step.key "a", .key "b", .key "c"] : List Step).take (n + 1) ∧
      atPath c8Schema (([Step.key "a", .key "b", .key "c"] : List Step).take n) =
        .ok (some sc) ∧
      child sc (([Step.key "a", .key "b", .key "c"] : List Step).get ⟨n, hn⟩) = .error msg :=
  c8_at_path_error_is_walked_prefix c8Schema [.key "a", .key "b", .key "c"]
    [.key "a", .key "b"] rfl

end Classic

namespace Spartan

/-- The `enum` member loop's verdict does not depend on diagnostics
collection. -/
theorem schemaEnumLoop_fst (location : PathArray) :
    ∀ (items : List Value) (i : Nat),
      (schemaEnumLoop true location items i).1 = (schemaEnumLoop false location items i).1 := by
  intro items
  induction items with
  | nil => intro i; rfl
  | cons item rest ih =>
      intro i
      simp only [schemaEnumLoop]
      cases htrue : schemaEnumLoop true location rest (i + 1) with
      | mk okT errsT =>
          cases hfalse : schemaEnumLoop false location rest (i + 1) with
          | mk okF errsF =>
              have heq := ih (i + 1)
              rw [htrue, hfalse] at heq
              cases item <;> simp_all

/-- Once the element loop's accumulated verdict is false it stays
false. -/
theorem schemaElemsLoop_false (f : Value → PathArray → Bool × List SchemaError)
    (collect : Bool) (location : PathArray) :
    ∀ (items : List Value) (i : Nat) (errs : List SchemaError),
      (schemaElemsLoop f collect location items i false errs).1 = false := by
  intro items
  induction items with
  | nil => intro i errs; rfl
  | cons item rest ih =>
      intro i errs
      simp only [schemaElemsLoop]
      cases hf : f item (location ++ [.idx i]) with
      | mk ok es =>
          simp only
          split
          · exact ih (i + 1) (errs ++ es)
          · split
            · exact ih (i + 1) (errs ++ es)
            · rfl

/-- The element loop's verdict does not depend on diagnostics
collection, granted that the per-element verdicts do not. -/
theorem schemaElemsLoop_fst (ft ff : Value → PathArray → Bool × List SchemaError)
    (location : PathArray) (hf : ∀ v loc, (ft v loc).1 = (ff v loc).1) :
    ∀ (items : List Value) (i : Nat) (errsT errsF : List SchemaError),
      (schemaElemsLoop ft true location items i true errsT).1 =
        (schemaElemsLoop ff false location items i true errsF).1 := by
  intro items
  induction items with
  | nil => intro i errsT errsF; rfl
  | cons item rest ih =>
      intro i errsT errsF
      simp only [schemaElemsLoop]
      cases hft : ft item (location ++ [.idx i]) with
      | mk okT esT =>
          cases hff : ff item (location ++ [.idx i]) with
          | mk okF esF =>
              have heq := hf item (location ++ [.idx i])
              rw [hft, hff] at heq
              simp only at heq
              subst heq
              cases okT with
              | true => simpa using ih (i + 1) (errsT ++ esT) (errsF ++ esF)
              | false =>
                  simpa using schemaElemsLoop_false ft true location rest (i + 1) (errsT ++ esT)

/-- Once the object-entry loop's accumulated verdict is false it stays
false. -/
theorem schemaObjLoop_false (f : Value → PathArray → Bool × List SchemaError)
    (collect : Bool) (location : PathArray) :
    ∀ (kvs : List (String × Value)) (errs : List SchemaError),
      (schemaObjLoop f collect location kvs false errs).1 = false := by
  intro kvs
  induction kvs with
  | nil => intro errs; rfl
  | cons kv rest ih =>
      intro errs
      obtain ⟨k, v⟩ := kv
      simp only [schemaObjLoop]
      cases objEntryTarget v with
      | some s =>
          simp only
          cases hf : f s (location ++ [.key k]) with
          | mk ok es =>
              simp only
              split
              · exact ih (errs ++ es)
              · split
                · exact ih (errs ++ es)
                · rfl
      | none =>
          simp only
          split
          · exact ih _
          · rfl

/-- The object-entry loop's verdict does not depend on diagnostics
collection, granted that the per-entry verdicts do not. -/
theorem schemaObjLoop_fst (ft ff : Value → PathArray → Bool × List SchemaError)
    (location : PathArray) (hf : ∀ v loc, (ft v loc).1 = (ff v loc).1) :
    ∀ (kvs : List (String × Value)) (errsT errsF : List SchemaError),
      (schemaObjLoop ft true location kvs true errsT).1 =
        (schemaObjLoop ff false location kvs true errsF).1 := by
  intro kvs
  induction kvs with
  | nil => intro errsT errsF; rfl
  | cons kv rest ih =>
      intro errsT errsF
      obtain ⟨k, v⟩ := kv
      simp only [schemaObjLoop]
      cases objEntryTarget v with
      | some s =>
          simp only
          cases hft : ft s (location ++ [.key k]) with
          | mk okT esT =>
              cases hff : ff s (location ++ [.key k]) with
              | mk okF esF =>
                  have heq := hf s (location ++ [.key k])
                  rw [hft, hff] at heq
                  simp only at heq
                  subst heq
                  cases okT with
                  | true => simpa using ih (errsT ++ esT) (errsF ++ esF)
                  | false =>
                      simpa using schemaObjLoop_false ft true location rest (errsT ++ esT)
      | none =>
          simp only [if_true, if_false]
          exact schemaObjLoop_false ft true location rest _

/-- One level of the grammar check: the verdict does not depend on
diagnostics collection, granted that sub-level verdicts do not. -/
theorem isSchemaTypeStep_fst (ft ff : Value → PathArray → Bool × List SchemaError)
    (hf : ∀ v loc, (ft v loc).1 = (ff v loc).1) (v : Value) (refs : List String)
    (loc : PathArray) :
    (isSchemaTypeStep ft true v refs loc).1 = (isSchemaTypeStep ff false v refs loc).1 := by
  cases v with
  | null => rfl
  | bool b => rfl
  | num q => rfl
  | str s => simp only [isSchemaTypeStep]; split <;> rfl
  | date d => rfl
  | binary b => rfl
  | obj kvs =>
      simp only [isSchemaTypeStep]
      exact schemaObjLoop_fst ft ff loc hf kvs [] []
  | arr items =>
      simp only [isSchemaTypeStep]
      by_cases hlen : items.length < 2
      · rw [if_pos hlen, if_pos hlen]
      · rw [if_neg hlen, if_neg hlen]
        match items with
        | [] => rfl
        | v0 :: rest =>
            cases v0 with
            | str head =>
                simp only
                by_cases h1 : head = "enum"
                · rw [if_pos h1, if_pos h1]
                  exact schemaEnumLoop_fst loc rest 1
                · rw [if_neg h1, if_neg h1]
                  by_cases h2 : head = "tuple" ∨ head = "array" ∨ head = "oneof"
                  · rw [if_pos h2, if_pos h2]
                    exact schemaElemsLoop_fst ft ff loc hf rest 1 [] []
                  · rw [if_neg h2, if_neg h2]
                    by_cases h3 : head = "dictionary"
                    · rw [if_pos h3, if_pos h3]
                      by_cases h4 : (Value.str head :: rest : List Value).length ≠ 2
                      · rw [if_pos h4, if_pos h4]
                      · rw [if_neg h4, if_neg h4]
                        cases rest with
                        | nil => rfl
                        | cons v1 r2 => exact hf v1 (loc ++ [.idx 1])
                    · rw [if_neg h3, if_neg h3]
                      by_cases h5 : head = "ref"
                      · rw [if_pos h5, if_pos h5]
                        by_cases h6 : (Value.str head :: rest : List Value).length ≠ 2
                        · rw [if_pos h6, if_pos h6]
                        · rw [if_neg h6, if_neg h6]
                          cases rest with
                          | nil => rfl
                          | cons v1 r2 =>
                              cases v1 with
                              | str l => simp only; split <;> rfl
                              | null => rfl
                              | bool b => rfl
                              | num q => rfl
                              | date d => rfl
                              | binary b => rfl
                              | arr a => rfl
                              | obj o => rfl
                      · rw [if_neg h5, if_neg h5]
                        by_cases h7 : head = "optional"
                        · rw [if_pos h7, if_pos h7]
                        · rw [if_neg h7, if_neg h7]
            | null => rfl
            | bool b => rfl
            | num q => rfl
            | date d => rfl
            | binary b => rfl
            | arr a => rfl
            | obj o => rfl

end Spartan

namespace Spartan

/-- The grammar check's verdict does not depend on diagnostics
collection, at every fuel level. -/
theorem isSchemaType_fst :
    ∀ (fuel : Nat) (v : Value) (refs : List String) (loc : PathArray),
      (isSchemaType fuel true v refs loc).1 = (isSchemaType fuel false v refs loc).1 := by
  intro fuel
  induction fuel with
  | zero => intro v refs loc; rfl
  | succ fuel ih =>
      intro v refs loc
      exact isSchemaTypeStep_fst _ _ (fun v1 loc1 => ih v1 refs loc1) v refs loc

/-- Once the `let` loop's accumulated verdict is false it stays
false. -/
theorem schemaLetLoop_false (f : Value → PathArray → Bool × List SchemaError) (collect : Bool) :
    ∀ (entries : List (String × Value)) (errs : List SchemaError),
      (schemaLetLoop f collect entries false errs).1 = false := by
  intro entries
  induction entries with
  | nil => intro errs; rfl
  | cons kv rest ih =>
      intro errs
      obtain ⟨k, v⟩ := kv
      simp only [schemaLetLoop]
      cases hf : f v [.key "let", .key k] with
      | mk ok es =>
          simp only
          split
          · exact ih (errs ++ es)
          · split
            · exact ih (errs ++ es)
            · rfl

/-- In collect mode the `let` loop never aborts. -/
theorem schemaLetLoop_no_abort (f : Value → PathArray → Bool × List SchemaError) :
    ∀ (entries : List (String × Value)) (result : Bool) (errs : List SchemaError),
      (schemaLetLoop f true entries result errs).2.2 = false := by
  intro entries
  induction entries with
  | nil => intro result errs; rfl
  | cons kv rest ih =>
      intro result errs
      obtain ⟨k, v⟩ := kv
      simp only [schemaLetLoop]
      cases hf : f v [.key "let", .key k] with
      | mk ok es =>
          simp only
          split
          · exact ih _ _
          · exact ih _ _

/-- When the non-collect `let` loop aborts, its verdict is false. -/
theorem schemaLetLoop_abort_fst (f : Value → PathArray → Bool × List SchemaError) :
    ∀ (entries : List (String × Value)) (result : Bool) (errs : List SchemaError),
      (schemaLetLoop f false entries result errs).2.2 = true →
        (schemaLetLoop f false entries result errs).1 = false := by
  intro entries
  induction entries with
  | nil => intro result errs h; cases h
  | cons kv rest ih =>
      intro result errs h
      obtain ⟨k, v⟩ := kv
      simp only [schemaLetLoop] at h ⊢
      cases hf : f v [.key "let", .key k] with
      | mk ok es =>
          rw [hf] at h
          simp only at h ⊢
          split
          · exact ih _ _ (by
              rw [if_pos (by assumption)] at h
              exact h)
          · rfl

/-- The `let` loop's verdict does not depend on diagnostics collection,
granted that the per-entry verdicts do not. -/
theorem schemaLetLoop_fst (ft ff : Value → PathArray → Bool × List SchemaError)
    (hf : ∀ v loc, (ft v loc).1 = (ff v loc).1) :
    ∀ (entries : List (String × Value)) (result : Bool) (errsT errsF : List SchemaError),
      (schemaLetLoop ft true entries result errsT).1 =
        (schemaLetLoop ff false entries result errsF).1 := by
  intro entries
  induction entries with
  | nil => intro result errsT errsF; rfl
  | cons kv rest ih =>
      intro result errsT errsF
      obtain ⟨k, v⟩ := kv
      simp only [schemaLetLoop]
      cases hft : ft v [.key "let", .key k] with
      | mk okT esT =>
          cases hff : ff v [.key "let", .key k] with
          | mk okF esF =>
              have heq := hf v [.key "let", .key k]
              rw [hft, hff] at heq
              simp only at heq
              subst heq
              cases okT with
              | true => simpa using ih result (errsT ++ esT) (errsF ++ esF)
              | false =>
                  simpa using schemaLetLoop_false ft true rest (errsT ++ esT)

/-- Abort of the non-collect `let` loop coincides with the collect
loop's verdict turning false, granted pointwise verdict agreement. -/
theorem schemaLetLoop_abort_iff (ft ff : Value → PathArray → Bool × List SchemaError)
    (hf : ∀ v loc, (ft v loc).1 = (ff v loc).1) :
    ∀ (entries : List (String × Value)) (result : Bool) (errsT errsF : List SchemaError),
      (schemaLetLoop ff false entries result errsF).2.2 = true →
        (schemaLetLoop ft true entries result errsT).1 = false := by
  intro entries
  induction entries with
  | nil => intro result errsT errsF h; cases h
  | cons kv rest ih =>
      intro result errsT errsF h
      obtain ⟨k, v⟩ := kv
      simp only [schemaLetLoop] at h ⊢
      cases hft : ft v [.key "let", .key k] with
      | mk okT esT =>
          cases hff : ff v [.key "let", .key k] with
          | mk okF esF =>
              have heq := hf v [.key "let", .key k]
              rw [hft, hff] at heq
              simp only at heq
              subst heq
              rw [hff] at h
              simp only at h ⊢
              cases okT with
              | true =>
                  rw [if_pos rfl] at h ⊢
                  exact ih result (errsT ++ esT) (errsF ++ esF) h
              | false =>
                  simpa using schemaLetLoop_false ft true rest (errsT ++ esT)

end Spartan

namespace Spartan

/-- A false accumulated result makes the final verdict false. -/
theorem isSchemaFinal_false (fuel : Nat) (collect : Bool) (kvs : List (String × Value))
    (refs : List String) (errs : List SchemaError) :
    (isSchemaFinal fuel collect kvs refs false errs).1 = false := by
  simp only [isSchemaFinal]
  cases lookupStr kvs "schema" with
  | some s =>
      simp only
      cases isSchemaType fuel collect s refs [.key "schema"] with
      | mk ok es => simp
  | none => rfl

/-- The final step's verdict does not depend on diagnostics
collection. -/
theorem isSchemaFinal_fst (fuel : Nat) (kvs : List (String × Value)) (refs : List String)
    (result : Bool) (errsT errsF : List SchemaError) :
    (isSchemaFinal fuel true kvs refs result errsT).1 =
      (isSchemaFinal fuel false kvs refs result errsF).1 := by
  simp only [isSchemaFinal]
  cases lookupStr kvs "schema" with
  | some s =>
      simp only
      cases hT : isSchemaType fuel true s refs [.key "schema"] with
      | mk okT esT =>
          cases hF : isSchemaType fuel false s refs [.key "schema"] with
          | mk okF esF =>
              have heq := isSchemaType_fst fuel s refs [.key "schema"]
              rw [hT, hF] at heq
              simp only at heq
              simp [heq]
  | none => rfl

/-- A false accumulated result makes the `let` step's verdict false. -/
theorem isSchemaLet_false (fuel : Nat) (kvs : List (String × Value))
    (errs : List SchemaError) :
    (isSchemaLet fuel true kvs false errs).1 = false := by
  simp only [isSchemaLet]
  cases lookupStr kvs "let" with
  | some lv =>
      cases lv with
      | obj letkvs =>
          simp only
          cases hloop : schemaLetLoop
              (fun w loc => isSchemaType fuel true w (letkvs.map Prod.fst) loc)
              true letkvs false errs with
          | mk r1 p =>
              cases p with
              | mk errs2 abort =>
                  have hr : r1 = false := by
                    have := schemaLetLoop_false
                      (fun w loc => isSchemaType fuel true w (letkvs.map Prod.fst) loc)
                      true letkvs errs
                    rw [hloop] at this
                    exact this
                  subst hr
                  cases abort with
                  | true => rfl
                  | false => exact isSchemaFinal_false fuel true kvs _ errs2
      | null => simpa using isSchemaFinal_false fuel true kvs [] _
      | bool b => simpa using isSchemaFinal_false fuel true kvs [] _
      | num q => simpa using isSchemaFinal_false fuel true kvs [] _
      | str s => simpa using isSchemaFinal_false fuel true kvs [] _
      | date d => simpa using isSchemaFinal_false fuel true kvs [] _
      | binary b => simpa using isSchemaFinal_false fuel true kvs [] _
      | arr a => simpa using isSchemaFinal_false fuel true kvs [] _
  | none => exact isSchemaFinal_false fuel true kvs [] errs

/-- The `let` step's verdict does not depend on diagnostics
collection. -/
theorem isSchemaLet_fst (fuel : Nat) (kvs : List (String × Value)) (result : Bool)
    (errsT errsF : List SchemaError) :
    (isSchemaLet fuel true kvs result errsT).1 =
      (isSchemaLet fuel false kvs result errsF).1 := by
  simp only [isSchemaLet]
  cases lookupStr kvs "let" with
  | some lv =>
      cases lv with
      | obj letkvs =>
          simp only
          cases hloopT : schemaLetLoop
              (fun w loc => isSchemaType fuel true w (letkvs.map Prod.fst) loc)
              true letkvs result errsT with
          | mk rT pT =>
              cases pT with
              | mk errsT2 abortT =>
                  have habortT : abortT = false := by
                    have := schemaLetLoop_no_abort
                      (fun w loc => isSchemaType fuel true w (letkvs.map Prod.fst) loc)
                      letkvs result errsT
                    rw [hloopT] at this
                    exact this
                  subst habortT
                  cases hloopF : schemaLetLoop
                      (fun w loc => isSchemaType fuel false w (letkvs.map Prod.fst) loc)
                      false letkvs result errsF with
                  | mk rF pF =>
                      cases pF with
                      | mk errsF2 abortF =>
                          cases abortF with
                          | true =>
                              simp only
                              have hrT : rT = false := by
                                have := schemaLetLoop_abort_iff
                                  (fun w loc =>
                                    isSchemaType fuel true w (letkvs.map Prod.fst) loc)
                                  (fun w loc =>
                                    isSchemaType fuel false w (letkvs.map Prod.fst) loc)
                                  (fun w loc => isSchemaType_fst fuel w _ loc)
                                  letkvs result errsT errsF (by rw [hloopF])
                                rw [hloopT] at this
                                exact this
                              subst hrT
                              exact isSchemaFinal_false fuel true kvs _ errsT2
                          | false =>
                              simp only
                              have hreq : rT = rF := by
                                have := schemaLetLoop_fst
                                  (fun w loc =>
                                    isSchemaType fuel true w (letkvs.map Prod.fst) loc)
                                  (fun w loc =>
                                    isSchemaType fuel false w (letkvs.map Prod.fst) loc)
                                  (fun w loc => isSchemaType_fst fuel w _ loc)
                                  letkvs result errsT errsF
                                rw [hloopT, hloopF] at this
                                exact this
                              subst hreq
                              exact isSchemaFinal_fst fuel kvs _ rT errsT2 errsF2
      | null => simpa using isSchemaFinal_false fuel true kvs [] _
      | bool b => simpa using isSchemaFinal_false fuel true kvs [] _
      | num q => simpa using isSchemaFinal_false fuel true kvs [] _
      | str s => simpa using isSchemaFinal_false fuel true kvs [] _
      | date d => simpa using isSchemaFinal_false fuel true kvs [] _
      | binary b => simpa using isSchemaFinal_false fuel true kvs [] _
      | arr a => simpa using isSchemaFinal_false fuel true kvs [] _
  | none => exact isSchemaFinal_fst fuel kvs [] result errsT errsF

/-- C10: `isSchema` accepts exactly the same inputs whether or not a
diagnostics array is supplied — the short-circuiting no-diagnostics
mode and the collect-all mode agree as acceptors, at every fuel
level. -/
theorem c10_is_schema_mode_independent (fuel : Nat) (v : Value) :
    (isSchema fuel true v).1 = (isSchema fuel false v).1 := by
  cases v with
  | obj kvs =>
      simp only [isSchema]
      by_cases hsb : spartanBadCheck kvs
      · rw [hsb]
        simp only [Bool.not_true, Bool.not_false, Bool.and_false, Bool.and_true,
          Bool.false_eq_true, if_false, if_pos rfl]
        exact isSchemaLet_false fuel kvs _
      · rw [Bool.not_eq_true] at hsb
        rw [hsb]
        simp only [Bool.not_false, Bool.false_and, Bool.and_true, Bool.false_eq_true,
          if_false]
        exact isSchemaLet_fst fuel kvs true _ _
  | null => rfl
  | bool b => rfl
  | num q => rfl
  | str s => rfl
  | date d => rfl
  | binary b => rfl
  | arr a => rfl

end Spartan

namespace Spartan

/-- A successful lookup finds one of the list's entries. -/
theorem lookupStr_mem {α : Type} (k : String) (x : α) :
    ∀ kvs : List (String × α), lookupStr kvs k = some x → (k, x) ∈ kvs := by
  intro kvs
  induction kvs with
  | nil => intro h; cases h
  | cons p rest ih =>
      intro h
      obtain ⟨k1, v1⟩ := p
      simp only [lookupStr] at h
      by_cases hk : k1 = k
      · rw [if_pos hk] at h
        cases h
        subst hk
        exact List.mem_cons_self _ _
      · rw [if_neg hk] at h
        exact List.mem_cons_of_mem _ (ih h)

/-- A present entry makes its key visible to `hasKey`. -/
theorem hasKey_of_mem {α : Type} (k : String) (x : α) :
    ∀ kvs : List (String × α), (k, x) ∈ kvs → hasKey kvs k = true := by
  intro kvs
  induction kvs with
  | nil => intro h; cases h
  | cons p rest ih =>
      intro h
      obtain ⟨k1, v1⟩ := p
      simp only [hasKey, lookupStr]
      by_cases hk : k1 = k
      · rw [if_pos hk]; rfl
      · rw [if_neg hk]
        rcases List.mem_cons.mp h with heq | hmem
        · cases heq; exact absurd rfl hk
        · exact ih hmem

/-- With duplicate-free keys, a present entry is what lookup finds. -/
theorem lookupStr_mem_nodup (k : String) (x : Value) :
    ∀ kvs : List (String × Value), Classic.keysNodup kvs = true → (k, x) ∈ kvs →
      lookupStr kvs k = some x := by
  intro kvs
  induction kvs with
  | nil => intro _ h; cases h
  | cons p rest ih =>
      intro hnd h
      obtain ⟨k1, v1⟩ := p
      simp only [Classic.keysNodup, Bool.and_eq_true] at hnd
      simp only [lookupStr]
      rcases List.mem_cons.mp h with heq | hmem
      · cases heq
        rw [if_pos rfl]
      · by_cases hk : k1 = k
        · subst hk
          have : hasKey rest k1 = true := hasKey_of_mem k1 x rest hmem
          rw [this] at hnd
          simp at hnd
        · rw [if_neg hk]
          exact ih hnd.2 hmem

/-- Values of a well-formed field list are well-formed. -/
theorem wfFields_mem (k : String) (x : Value) :
    ∀ kvs : List (String × Value), Classic.wfFields kvs = true → (k, x) ∈ kvs →
      Classic.wfValue x = true := by
  intro kvs
  induction kvs with
  | nil => intro _ h; cases h
  | cons p rest ih =>
      intro hwf h
      obtain ⟨k1, v1⟩ := p
      simp only [Classic.wfFields, Bool.and_eq_true] at hwf
      rcases List.mem_cons.mp h with heq | hmem
      · cases heq; exact hwf.1
      · exact ih hwf.2 hmem

/-- Elements of a well-formed element list are well-formed. -/
theorem wfElems_mem (x : Value) :
    ∀ xs : List Value, Classic.wfElems xs = true → x ∈ xs →
      Classic.wfValue x = true := by
  intro xs
  induction xs with
  | nil => intro _ h; cases h
  | cons y rest ih =>
      intro hwf h
      simp only [Classic.wfElems, Bool.and_eq_true] at hwf
      rcases List.mem_cons.mp h with heq | hmem
      · cases heq; exact hwf.1
      · exact ih hwf.2 hmem

end Spartan

namespace Classic

open Spartan (lookupStr hasKey Value lookupStr_mem hasKey_of_mem lookupStr_mem_nodup)

/-- Key containment extends under a longer right-hand list. -/
theorem keysSubset_cons_right {α β : Type} (k1 : String) (w : β) (ys : List (String × β)) :
    ∀ xs : List (String × α), keysSubset xs ys = true → keysSubset xs ((k1, w) :: ys) = true := by
  intro xs
  induction xs with
  | nil => intro _; rfl
  | cons p rest ih =>
      intro h
      obtain ⟨k, v⟩ := p
      simp only [keysSubset, Bool.and_eq_true] at h ⊢
      refine ⟨?_, ih h.2⟩
      simp only [hasKey, lookupStr]
      by_cases hk : k1 = k
      · rw [if_pos hk]; rfl
      · rw [if_neg hk]; exact h.1

/-- Every key list is contained in itself. -/
theorem keysSubset_self {α : Type} (ys : List (String × α)) :
    ∀ xs : List (String × α), (∀ p ∈ xs, p ∈ ys) → keysSubset xs ys = true := by
  intro xs
  induction xs with
  | nil => intro _; rfl
  | cons p rest ih =>
      intro h
      obtain ⟨k, v⟩ := p
      simp only [keysSubset, Bool.and_eq_true]
      exact ⟨hasKey_of_mem k v ys (h (k, v) (by simp)),
        ih (fun q hq => h q (by simp [hq]))⟩

/-- Field-wise deep equality ignores a leading binding whose key occurs
in none of the left-hand entries. -/
theorem deepEqFields_cons_irrelevant (k1 : String) (x : Value) (ys : List (String × Value)) :
    ∀ sub : List (String × Value), (∀ p ∈ sub, p.1 ≠ k1) →
      deepEqFields sub ((k1, x) :: ys) = deepEqFields sub ys := by
  intro sub
  induction sub with
  | nil => intro _; rfl
  | cons p rest ih =>
      intro h
      obtain ⟨k, v⟩ := p
      have hk : k ≠ k1 := h (k, v) (by simp)
      simp only [deepEqFields]
      rw [Spartan.lookupStr_cons_ne k1 k x ys (fun hc => hk hc.symm),
        ih (fun q hq => h q (by simp [hq]))]

end Classic

namespace Classic

open Spartan (lookupStr hasKey Value lookupStr_mem hasKey_of_mem lookupStr_mem_nodup
  wfFields_mem wfElems_mem)

mutual

/-- Deep equality is reflexive on well-formed values. -/
theorem deepEq_refl : ∀ v : Value, wfValue v = true → deepEq v v = true
  | .null => fun _ => rfl
  | .bool b => fun _ => by simp [deepEq]
  | .num q => fun _ => by simp [deepEq]
  | .str s => fun _ => by simp [deepEq]
  | .date d => fun _ => by simp [deepEq]
  | .binary b => fun _ => by simp [deepEq]
  | .arr xs => fun h => by
      rw [show deepEq (.arr xs) (.arr xs) = deepEqElems xs xs from rfl]
      exact deepEqElems_refl xs (by simpa [wfValue] using h)
  | .obj kvs => fun h => by
      rw [show deepEq (.obj kvs) (.obj kvs) = (deepEqFields kvs kvs && keysSubset kvs kvs)
        from rfl]
      have hwf : keysNodup kvs = true ∧ wfFields kvs = true := by
        simpa [wfValue, Bool.and_eq_true] using h
      rw [deepEqFieldsSelf kvs kvs hwf.2
        (fun p hp => lookupStr_mem_nodup p.1 p.2 kvs hwf.1 hp),
        keysSubset_self kvs kvs (fun p hp => hp)]
      rfl

/-- Element-wise deep equality is reflexive on well-formed elements. -/
theorem deepEqElems_refl : ∀ xs : List Value, wfElems xs = true → deepEqElems xs xs = true
  | [] => fun _ => rfl
  | x :: xs => fun h => by
      have hwf : wfValue x = true ∧ wfElems xs = true := by
        simpa [wfElems, Bool.and_eq_true] using h
      rw [show deepEqElems (x :: xs) (x :: xs) = (deepEq x x && deepEqElems xs xs) from rfl,
        deepEq_refl x hwf.1, deepEqElems_refl xs hwf.2]
      rfl

/-- Field-wise deep equality holds when every left entry is found, with
the same value, in the right list. -/
theorem deepEqFieldsSelf : ∀ sub kvs : List (String × Value), wfFields sub = true →
    (∀ p ∈ sub, lookupStr kvs p.1 = some p.2) → deepEqFields sub kvs = true
  | [], _ => fun _ _ => rfl
  | (k, v) :: rest, kvs => fun h hp => by
      have hwf : wfValue v = true ∧ wfFields rest = true := by
        simpa [wfFields, Bool.and_eq_true] using h
      rw [show deepEqFields ((k, v) :: rest) kvs =
        ((match lookupStr kvs k with
          | some w => deepEq v w
          | none => false) && deepEqFields rest kvs) from rfl]
      rw [hp (k, v) (by simp)]
      simp only
      rw [deepEq_refl v hwf.1, deepEqFieldsSelf rest kvs hwf.2 (fun q hq => hp q (by simp [hq]))]
      rfl

end

end Classic

namespace Classic

open Spartan (Value)

/-- A scalar type's optionless restriction returns the value unchanged
when it validates and is undefined when it does not. -/
theorem scalar_restrict_char (s : CSchema) (v : Value) (o : VOpts) (hs : isScalar s = true) :
    ((validate s v o).isEmpty = true → restrict s (some v) ⟨false, false, false⟩ = some v) ∧
    ((validate s v o).isEmpty = false → restrict s (some v) ⟨false, false, false⟩ = none) := by
  cases s with
  | stringT =>
      cases v <;>
        exact ⟨fun h => by first | rfl | exact Bool.noConfusion h,
          fun h => by first | rfl | exact Bool.noConfusion h⟩
  | floatT =>
      cases v <;>
        exact ⟨fun h => by first | rfl | exact Bool.noConfusion h,
          fun h => by first | rfl | exact Bool.noConfusion h⟩
  | binaryT =>
      cases v <;>
        exact ⟨fun h => by first | rfl | exact Bool.noConfusion h,
          fun h => by first | rfl | exact Bool.noConfusion h⟩
  | dateT =>
      cases v <;>
        exact ⟨fun h => by first | rfl | exact Bool.noConfusion h,
          fun h => by first | rfl | exact Bool.noConfusion h⟩
  | booleanT =>
      cases v <;>
        exact ⟨fun h => by first | rfl | exact Bool.noConfusion h,
          fun h => by first | rfl | exact Bool.noConfusion h⟩
  | nullT =>
      cases v <;>
        exact ⟨fun h => by first | rfl | exact Bool.noConfusion h,
          fun h => by first | rfl | exact Bool.noConfusion h⟩
  | integerT =>
      cases v with
      | num q =>
          have hva : validate .integerT (.num q) o =
              (if (⌊q⌋ : ℚ) = q then [] else [⟨.integerT, .num q, o.path⟩]) := rfl
          have hre : restrict .integerT (some (.num q)) ⟨false, false, false⟩ =
              (if (⌊q⌋ : ℚ) = q then some (.num q) else none) := rfl
          by_cases hq : (⌊q⌋ : ℚ) = q
          · exact ⟨fun _ => by rw [hre, if_pos hq],
              fun h => by rw [hva, if_pos hq] at h; exact Bool.noConfusion h⟩
          · exact ⟨fun h => by rw [hva, if_neg hq] at h; exact Bool.noConfusion h,
              fun _ => by rw [hre, if_neg hq]⟩
      | null =>
          exact ⟨fun h => Bool.noConfusion h, fun _ => rfl⟩
      | bool b =>
          exact ⟨fun h => Bool.noConfusion h, fun _ => rfl⟩
      | str s =>
          exact ⟨fun h => Bool.noConfusion h, fun _ => rfl⟩
      | date d =>
          exact ⟨fun h => Bool.noConfusion h, fun _ => rfl⟩
      | binary b =>
          exact ⟨fun h => Bool.noConfusion h, fun _ => rfl⟩
      | arr a =>
          exact ⟨fun h => Bool.noConfusion h, fun _ => rfl⟩
      | obj kvs =>
          exact ⟨fun h => Bool.noConfusion h, fun _ => rfl⟩
  | enumT ms =>
      have hva : validate (.enumT ms) v o =
          (if ms.any (fun m => Spartan.primEqValue m v) then [] else [⟨.enumT ms, v, o.path⟩]) :=
        rfl
      have hre : restrict (.enumT ms) (some v) ⟨false, false, false⟩ =
          (if ms.any (fun m => Spartan.primEqValue m v) then some v else none) := rfl
      by_cases hm : (ms.any fun m => Spartan.primEqValue m v) = true
      · exact ⟨fun _ => by rw [hre, if_pos hm],
          fun h => by rw [hva, if_pos hm] at h; exact Bool.noConfusion h⟩
      · exact ⟨fun h => by rw [hva, if_neg hm] at h; exact Bool.noConfusion h,
          fun _ => by rw [hre, if_neg hm]⟩
  | oneof ts => exact absurd hs (by simp [isScalar])
  | array t => exact absurd hs (by simp [isScalar])
  | dictionary t => exact absurd hs (by simp [isScalar])
  | object entries => exact absurd hs (by simp [isScalar])
  | anyT => exact absurd hs (by simp [isScalar])

mutual

/-- Optionless restriction of the absent value (an object key that is
missing) is undefined, for every node type. -/
theorem restrict_none : ∀ s : CSchema, restrict s none ⟨false, false, false⟩ = none
  | .stringT => rfl
  | .floatT => rfl
  | .integerT => rfl
  | .binaryT => rfl
  | .dateT => rfl
  | .booleanT => rfl
  | .nullT => rfl
  | .enumT ms => rfl
  | .oneof ts => by
      simp only [restrict]
      rw [rLoop_none ts]
      rfl
  | .array t => rfl
  | .dictionary t => rfl
  | .object entries => rfl
  | .anyT => rfl

/-- The `oneof` scanning loop finds nothing for the absent value. -/
theorem rLoop_none : ∀ ts : List CSchema, rLoop ts none ⟨false, false, false⟩ = none
  | [] => rfl
  | t :: ts => by
      simp only [rLoop]
      rw [restrict_none t]
      exact rLoop_none ts

end

/-- For a `oneof` whose alternatives are all scalars, the optionless
scanning loop returns the value itself as soon as some alternative
validates it. -/
theorem rLoop_scalar_some :
    ∀ (ts : List CSchema) (v : Value) (o : VOpts),
      (∀ t ∈ ts, isScalar t = true) → anyValidates ts v o = true →
      rLoop ts (some v) ⟨false, false, false⟩ = some v := by
  intro ts
  induction ts with
  | nil => intro v o _ h; cases h
  | cons t ts ih =>
      intro v o hsc hany
      have hor : (validate t v o).isEmpty = true ∨ anyValidates ts v o = true := by
        have : ((validate t v o).isEmpty || anyValidates ts v o) = true := hany
        simpa [Bool.or_eq_true] using this
      simp only [rLoop]
      by_cases he : (validate t v o).isEmpty = true
      · rw [(scalar_restrict_char t v o (hsc t (by simp))).1 he]
      · rw [(scalar_restrict_char t v o (hsc t (by simp))).2 (by simpa using he)]
        rcases hor with h1 | h2
        · exact absurd h1 he
        · exact ih v o (fun u hu => hsc u (by simp [hu])) h2

end Classic

namespace Classic

open Spartan (Value lookupStr hasKey)

/-- Members of an all-scalar list are scalars. -/
theorem allScalar_mem : ∀ ts : List CSchema, allScalar ts = true → ∀ t ∈ ts, isScalar t = true := by
  intro ts
  induction ts with
  | nil => intro _ t ht; cases ht
  | cons u ts ih =>
      intro h t ht
      simp only [allScalar, Bool.and_eq_true] at h
      rcases List.mem_cons.mp ht with rfl | hmem
      · exact h.1
      · exact ih h.2 t hmem

/-- A `oneof` validates to the empty list only when some alternative
accepts the value. -/
theorem validate_oneof_nil (ts : List CSchema) (v : Value) (o : VOpts)
    (h : validate (.oneof ts) v o = []) : anyValidates ts v o = true := by
  have hdef : validate (.oneof ts) v o =
      (if anyValidates ts v o then [] else [⟨.oneof ts, v, o.path⟩]) := rfl
  rw [hdef] at h
  by_cases hany : anyValidates ts v o = true
  · exact hany
  · rw [if_neg (by simpa using hany)] at h
    exact (List.cons_ne_nil _ _ h).elim

/-- An object type validates an object to the empty list only when the
per-field checks all pass and (without `allowExtraFields`) every key of
the value is declared. -/
theorem validate_object_nil (entries : List (String × CSchema))
    (kvs : List (String × Value)) (o : VOpts)
    (hextra : o.allowExtraFields = false)
    (h : validate (.object entries) (.obj kvs) o = []) :
    vFields entries o kvs = [] ∧ (kvs.all fun kv => hasEntry entries kv.1) = true := by
  have hdef : validate (.object entries) (.obj kvs) o =
      vFields entries o kvs ++
        (if !o.allowExtraFields && !(kvs.all fun kv => hasEntry entries kv.1) then
          [⟨.object entries, .obj kvs, o.path⟩]
        else []) := rfl
  rw [hdef] at h
  obtain ⟨h1, h2⟩ := List.append_eq_nil.mp h
  refine ⟨h1, ?_⟩
  by_cases hall : (kvs.all fun kv => hasEntry entries kv.1) = true
  · exact hall
  · rw [hextra] at h2
    rw [if_pos (by simp [Bool.not_eq_true] at hall ⊢; simp [hall])] at h2
    exact (List.cons_ne_nil _ _ h2).elim

/-- When the array element loop produces no errors, every element
validates (under some path, with the same `allowExtraFields`). -/
theorem vElems_nil (f : Value → VOpts → List TypeMismatch) (o : VOpts) :
    ∀ (xs : List Value) (i : Nat), vElems f o xs i = [] →
      ∀ x ∈ xs, ∃ o2 : VOpts, o2.allowExtraFields = o.allowExtraFields ∧ f x o2 = [] := by
  intro xs
  induction xs with
  | nil => intro i _ x hx; cases hx
  | cons y ys ih =>
      intro i h x hx
      simp only [vElems] at h
      obtain ⟨h1, h2⟩ := List.append_eq_nil.mp h
      rcases List.mem_cons.mp hx with rfl | hmem
      · exact ⟨{ o with path := o.path ++ [.idx i] }, rfl, h1⟩
      · exact ih (i + 1) h2 x hmem

/-- When the dictionary entry loop produces no errors, every entry
value validates. -/
theorem vEntries_nil (f : Value → VOpts → List TypeMismatch) (o : VOpts) :
    ∀ kvs : List (String × Value), vEntries f o kvs = [] →
      ∀ p ∈ kvs, ∃ o2 : VOpts, o2.allowExtraFields = o.allowExtraFields ∧ f p.2 o2 = [] := by
  intro kvs
  induction kvs with
  | nil => intro _ p hp; cases hp
  | cons q rest ih =>
      intro h p hp
      obtain ⟨k, x⟩ := q
      simp only [vEntries] at h
      obtain ⟨h1, h2⟩ := List.append_eq_nil.mp h
      rcases List.mem_cons.mp hp with rfl | hmem
      · exact ⟨{ o with path := o.path ++ [.key k] }, rfl, h1⟩
      · exact ih h2 p hmem

/-- When the declared-field loop produces no errors, every declared key
that is present validates. -/
theorem vFields_nil (o : VOpts) (kvs : List (String × Value)) :
    ∀ entries : List (String × CSchema), vFields entries o kvs = [] →
      ∀ e ∈ entries, ∀ x, lookupStr kvs e.1 = some x →
        ∃ o2 : VOpts, o2.allowExtraFields = o.allowExtraFields ∧ validate e.2 x o2 = [] := by
  intro entries
  induction entries with
  | nil => intro _ e he; cases he
  | cons q rest ih =>
      intro h e he x hx
      obtain ⟨k, t⟩ := q
      simp only [vFields] at h
      obtain ⟨h1, h2⟩ := List.append_eq_nil.mp h
      rcases List.mem_cons.mp he with rfl | hmem
      · rw [hx] at h1
        exact ⟨{ o with path := o.path ++ [.key k] }, rfl, h1⟩
      · exact ih h2 e hmem x hx

end Classic

namespace Classic

open Spartan (Value lookupStr hasKey lookupStr_mem hasKey_of_mem lookupStr_mem_nodup)

/-- If every element restricts to a deep-equal value, the restricted
array is pointwise deep-equal to the original. -/
theorem rElems_deepEq (f : Option Value → Option Value) :
    ∀ xs : List Value, (∀ x ∈ xs, ∃ w, f (some x) = some w ∧ deepEq w x = true) →
      deepEqElems (rElems f xs) xs = true := by
  intro xs
  induction xs with
  | nil => intro _; rfl
  | cons x rest ih =>
      intro h
      obtain ⟨w, hw, hd⟩ := h x (List.mem_cons_self x rest)
      have h1 : rElems f (x :: rest) = w :: rElems f rest := by
        show (match f (some x) with
              | some w => w :: rElems f rest
              | none => rElems f rest) = w :: rElems f rest
        rw [hw]
      rw [h1]
      show (deepEq w x && deepEqElems (rElems f rest) rest) = true
      rw [hd, ih (fun y hy => h y (List.mem_cons_of_mem x hy))]
      rfl

/-- Every key of the restricted dictionary already occurs in the
original. -/
theorem rDict_keys_mem (f : Option Value → Option Value) :
    ∀ kvs : List (String × Value), ∀ p ∈ rDict f kvs, ∃ x, (p.1, x) ∈ kvs := by
  intro kvs
  induction kvs with
  | nil => intro p hp; cases hp
  | cons q rest ih =>
      obtain ⟨k, x⟩ := q
      intro p hp
      cases hfx : f (some x) with
      | none =>
          have h1 : rDict f ((k, x) :: rest) = rDict f rest := by
            show (match f (some x) with
                  | some w => (k, w) :: rDict f rest
                  | none => rDict f rest) = rDict f rest
            rw [hfx]
          rw [h1] at hp
          obtain ⟨y, hy⟩ := ih p hp
          exact ⟨y, List.mem_cons_of_mem _ hy⟩
      | some w =>
          have h1 : rDict f ((k, x) :: rest) = (k, w) :: rDict f rest := by
            show (match f (some x) with
                  | some w => (k, w) :: rDict f rest
                  | none => rDict f rest) = (k, w) :: rDict f rest
            rw [hfx]
          rw [h1] at hp
          rcases List.mem_cons.mp hp with rfl | hmem
          · exact ⟨x, List.mem_cons_self _ _⟩
          · obtain ⟨y, hy⟩ := ih p hmem
            exact ⟨y, List.mem_cons_of_mem _ hy⟩

/-- If every entry value of a duplicate-free dictionary restricts to a
deep-equal value, the restricted dictionary is deep-equal to the
original (same key set, deeply equal values). -/
theorem rDict_deepEq (f : Option Value → Option Value) :
    ∀ kvs : List (String × Value), keysNodup kvs = true →
      (∀ p ∈ kvs, ∃ w, f (some p.2) = some w ∧ deepEq w p.2 = true) →
      deepEqFields (rDict f kvs) kvs = true ∧ keysSubset kvs (rDict f kvs) = true := by
  intro kvs
  induction kvs with
  | nil => intro _ _; exact ⟨rfl, rfl⟩
  | cons q rest ih =>
      obtain ⟨k, x⟩ := q
      intro hnd h
      obtain ⟨hnk, hndrest⟩ : !(hasKey rest k) = true ∧ keysNodup rest = true := by
        simpa [keysNodup, Bool.and_eq_true] using hnd
      obtain ⟨w, hw, hd⟩ := h (k, x) (List.mem_cons_self _ _)
      have h1 : rDict f ((k, x) :: rest) = (k, w) :: rDict f rest := by
        show (match f (some x) with
              | some w => (k, w) :: rDict f rest
              | none => rDict f rest) = (k, w) :: rDict f rest
        rw [hw]
      obtain ⟨ihF, ihS⟩ := ih hndrest (fun p hp => h p (List.mem_cons_of_mem _ hp))
      rw [h1]
      constructor
      · show ((match lookupStr ((k, x) :: rest) k with
               | some y => deepEq w y
               | none => false) &&
              deepEqFields (rDict f rest) ((k, x) :: rest)) = true
        have hlk : lookupStr ((k, x) :: rest) k = some x := by
          show (if k = k then some x else lookupStr rest k) = some x
          rw [if_pos rfl]
        rw [hlk]
        show (deepEq w x && deepEqFields (rDict f rest) ((k, x) :: rest)) = true
        have hirr : deepEqFields (rDict f rest) ((k, x) :: rest) =
            deepEqFields (rDict f rest) rest := by
          apply deepEqFields_cons_irrelevant
          intro p hp hcontra
          obtain ⟨y, hy⟩ := rDict_keys_mem f rest p hp
          have hhk := hasKey_of_mem p.1 y rest hy
          rw [hcontra] at hhk
          simp [hhk] at hnk
        rw [hirr, hd, ihF]
        rfl
      · show (hasKey ((k, w) :: rDict f rest) k && keysSubset rest ((k, w) :: rDict f rest)) = true
        have hhk : hasKey ((k, w) :: rDict f rest) k = true := by
          show ((if k = k then some w else lookupStr (rDict f rest) k)).isSome = true
          rw [if_pos rfl]
          rfl
        rw [hhk, keysSubset_cons_right k w (rDict f rest) rest ihS]
        rfl

/-- If every present declared field restricts (without options) to a
deep-equal value, the rebuilt object's fields are deep-equal to their
originals. -/
theorem rFields_deepEqFields (kvs : List (String × Value)) :
    ∀ entries : List (String × CSchema),
      (∀ e ∈ entries, ∀ x, lookupStr kvs e.1 = some x →
        ∀ w, restrict e.2 (some x) ⟨false, false, false⟩ = some w → deepEq w x = true) →
      deepEqFields (rFields entries kvs ⟨false, false, false⟩) kvs = true := by
  intro entries
  induction entries with
  | nil => intro _; rfl
  | cons e rest ih =>
      obtain ⟨k, t⟩ := e
      intro h
      have htail := ih (fun e he x hx w hw => h e (List.mem_cons_of_mem _ he) x hx w hw)
      cases hlk : lookupStr kvs k with
      | none =>
          have h1 : rFields ((k, t) :: rest) kvs ⟨false, false, false⟩ =
              rFields rest kvs ⟨false, false, false⟩ := by
            show (match restrict t (lookupStr kvs k) ⟨false, false, false⟩ with
                  | some w => (k, w) :: rFields rest kvs ⟨false, false, false⟩
                  | none => rFields rest kvs ⟨false, false, false⟩) =
              rFields rest kvs ⟨false, false, false⟩
            rw [hlk, restrict_none t]
          rw [h1]
          exact htail
      | some x =>
          cases hrw : restrict t (some x) ⟨false, false, false⟩ with
          | none =>
              have h1 : rFields ((k, t) :: rest) kvs ⟨false, false, false⟩ =
                  rFields rest kvs ⟨false, false, false⟩ := by
                show (match restrict t (lookupStr kvs k) ⟨false, false, false⟩ with
                      | some w => (k, w) :: rFields rest kvs ⟨false, false, false⟩
                      | none => rFields rest kvs ⟨false, false, false⟩) =
                  rFields rest kvs ⟨false, false, false⟩
                rw [hlk, hrw]
              rw [h1]
              exact htail
          | some w =>
              have h1 : rFields ((k, t) :: rest) kvs ⟨false, false, false⟩ =
                  (k, w) :: rFields rest kvs ⟨false, false, false⟩ := by
                show (match restrict t (lookupStr kvs k) ⟨false, false, false⟩ with
                      | some w => (k, w) :: rFields rest kvs ⟨false, false, false⟩
                      | none => rFields rest kvs ⟨false, false, false⟩) =
                  (k, w) :: rFields rest kvs ⟨false, false, false⟩
                rw [hlk, hrw]
              rw [h1]
              show ((match lookupStr kvs k with
                     | some y => deepEq w y
                     | none => false) &&
                    deepEqFields (rFields rest kvs ⟨false, false, false⟩) kvs) = true
              rw [hlk]
              show (deepEq w x && deepEqFields (rFields rest kvs ⟨false, false, false⟩) kvs) = true
              rw [h (k, t) (List.mem_cons_self _ _) x hlk w hrw, htail]
              rfl

/-- A declared key that is present in the value, whose present value
restricts successfully, appears among the rebuilt object's keys. -/
theorem rFields_hasKey (kvs : List (String × Value)) (k : String) :
    ∀ entries : List (String × CSchema),
      (∀ e ∈ entries, ∀ x, lookupStr kvs e.1 = some x →
        ∃ w, restrict e.2 (some x) ⟨false, false, false⟩ = some w) →
      (∃ t, (k, t) ∈ entries) → hasKey kvs k = true →
      hasKey (rFields entries kvs ⟨false, false, false⟩) k = true := by
  intro entries
  induction entries with
  | nil =>
      intro _ hex _
      obtain ⟨t, ht⟩ := hex
      cases ht
  | cons e rest ih =>
      obtain ⟨k1, t1⟩ := e
      intro h hex hk
      cases hlk : lookupStr kvs k1 with
      | none =>
          have h1 : rFields ((k1, t1) :: rest) kvs ⟨false, false, false⟩ =
              rFields rest kvs ⟨false, false, false⟩ := by
            show (match restrict t1 (lookupStr kvs k1) ⟨false, false, false⟩ with
                  | some w => (k1, w) :: rFields rest kvs ⟨false, false, false⟩
                  | none => rFields rest kvs ⟨false, false, false⟩) =
              rFields rest kvs ⟨false, false, false⟩
            rw [hlk, restrict_none t1]
          rw [h1]
          obtain ⟨t, ht⟩ := hex
          rcases List.mem_cons.mp ht with heq | hmem
          · injection heq with hk1 ht1
            subst hk1
            rw [show hasKey kvs k = (lookupStr kvs k).isSome from rfl, hlk] at hk
            simp at hk
          · exact ih (fun e he => h e (List.mem_cons_of_mem _ he)) ⟨t, hmem⟩ hk
      | some x =>
          obtain ⟨w, hw⟩ := h (k1, t1) (List.mem_cons_self _ _) x hlk
          have h1 : rFields ((k1, t1) :: rest) kvs ⟨false, false, false⟩ =
              (k1, w) :: rFields rest kvs ⟨false, false, false⟩ := by
            show (match restrict t1 (lookupStr kvs k1) ⟨false, false, false⟩ with
                  | some w => (k1, w) :: rFields rest kvs ⟨false, false, false⟩
                  | none => rFields rest kvs ⟨false, false, false⟩) =
              (k1, w) :: rFields rest kvs ⟨false, false, false⟩
            rw [hlk, hw]
          rw [h1]
          by_cases hkk : k1 = k
          · show ((if k1 = k then some w
                   else lookupStr (rFields rest kvs ⟨false, false, false⟩) k)).isSome = true
            rw [if_pos hkk]
            rfl
          · obtain ⟨t, ht⟩ := hex
            rcases List.mem_cons.mp ht with heq | hmem
            · injection heq with hk1 ht1
              exact absurd hk1.symm hkk
            · have hrec := ih (fun e he => h e (List.mem_cons_of_mem _ he)) ⟨t, hmem⟩ hk
              show ((if k1 = k then some w
                     else lookupStr (rFields rest kvs ⟨false, false, false⟩) k)).isSome = true
              rw [if_neg hkk]
              exact hrec

/-- Pairwise key containment from a per-key `hasKey` bound. -/
theorem keysSubset_of_hasKey {α β : Type} (ys : List (String × β)) :
    ∀ xs : List (String × α), (∀ p ∈ xs, hasKey ys p.1 = true) → keysSubset xs ys = true := by
  intro xs
  induction xs with
  | nil => intro _; rfl
  | cons p rest ih =>
      obtain ⟨k, x⟩ := p
      intro h
      show (hasKey ys k && keysSubset rest ys) = true
      rw [h (k, x) (List.mem_cons_self _ _), ih (fun q hq => h q (List.mem_cons_of_mem _ hq))]
      rfl

end Classic

namespace Classic

open Spartan (Value lookupStr hasKey lookupStr_mem hasKey_of_mem wfElems_mem wfFields_mem)

mutual

/-- Core of the validate/restrict agreement: on schemas whose `oneof`
nodes have only scalar alternatives, a value that validates cleanly is
restricted (without options) to a deep-equal value. -/
theorem c3Main : ∀ (s : CSchema) (v : Value) (o : VOpts),
    oneofScalarOnly s = true → wfValue v = true → o.allowExtraFields = false →
    validate s v o = [] →
    ∃ w, restrict s (some v) ⟨false, false, false⟩ = some w ∧ deepEq w v = true
  | .stringT => fun v o _ h2 _ h4 =>
      ⟨v, (scalar_restrict_char .stringT v o rfl).1 (by rw [h4]; rfl), deepEq_refl v h2⟩
  | .floatT => fun v o _ h2 _ h4 =>
      ⟨v, (scalar_restrict_char .floatT v o rfl).1 (by rw [h4]; rfl), deepEq_refl v h2⟩
  | .integerT => fun v o _ h2 _ h4 =>
      ⟨v, (scalar_restrict_char .integerT v o rfl).1 (by rw [h4]; rfl), deepEq_refl v h2⟩
  | .binaryT => fun v o _ h2 _ h4 =>
      ⟨v, (scalar_restrict_char .binaryT v o rfl).1 (by rw [h4]; rfl), deepEq_refl v h2⟩
  | .dateT => fun v o _ h2 _ h4 =>
      ⟨v, (scalar_restrict_char .dateT v o rfl).1 (by rw [h4]; rfl), deepEq_refl v h2⟩
  | .booleanT => fun v o _ h2 _ h4 =>
      ⟨v, (scalar_restrict_char .booleanT v o rfl).1 (by rw [h4]; rfl), deepEq_refl v h2⟩
  | .nullT => fun v o _ h2 _ h4 =>
      ⟨v, (scalar_restrict_char .nullT v o rfl).1 (by rw [h4]; rfl), deepEq_refl v h2⟩
  | .enumT ms => fun v o _ h2 _ h4 =>
      ⟨v, (scalar_restrict_char (.enumT ms) v o rfl).1 (by rw [h4]; rfl), deepEq_refl v h2⟩
  | .anyT => fun v o _ h2 _ _ => ⟨v, rfl, deepEq_refl v h2⟩
  | .oneof ts => fun v o h1 h2 _ h4 => by
      have hsc : ∀ t ∈ ts, isScalar t = true := allScalar_mem ts h1
      have hany : anyValidates ts v o = true := validate_oneof_nil ts v o h4
      have hr : rLoop ts (some v) ⟨false, false, false⟩ = some v :=
        rLoop_scalar_some ts v o hsc hany
      refine ⟨v, ?_, deepEq_refl v h2⟩
      simp only [restrict]
      rw [hr]
  | .array t => fun v o h1 h2 h3 h4 => by
      cases v
      case arr xs =>
        have h4e : vElems (fun x o1 => validate t x o1) o xs 0 = [] := h4
        have hpt : ∀ x ∈ xs, ∃ w,
            restrict t (some x) ⟨false, false, false⟩ = some w ∧ deepEq w x = true := by
          intro x hx
          obtain ⟨o2, ho2, hv2⟩ := vElems_nil (fun x o1 => validate t x o1) o xs 0 h4e x hx
          exact c3Main t x o2 h1 (wfElems_mem x xs h2 hx) (ho2.trans h3) hv2
        refine ⟨.arr (rElems (fun x => restrict t x ⟨false, false, false⟩) xs), rfl, ?_⟩
        show deepEqElems (rElems (fun x => restrict t x ⟨false, false, false⟩) xs) xs = true
        exact rElems_deepEq (fun x => restrict t x ⟨false, false, false⟩) xs hpt
      all_goals exact List.noConfusion h4
  | .dictionary t => fun v o h1 h2 h3 h4 => by
      cases v
      case obj kvs =>
        have h4e : vEntries (fun x o1 => validate t x o1) o kvs = [] := h4
        have hbw : (keysNodup kvs && wfFields kvs) = true := h2
        obtain ⟨hnd, hwf⟩ : keysNodup kvs = true ∧ wfFields kvs = true := by simpa using hbw
        have hpt : ∀ p ∈ kvs, ∃ w,
            restrict t (some p.2) ⟨false, false, false⟩ = some w ∧ deepEq w p.2 = true := by
          intro p hp
          obtain ⟨pk, px⟩ := p
          obtain ⟨o2, ho2, hv2⟩ := vEntries_nil (fun x o1 => validate t x o1) o kvs h4e (pk, px) hp
          exact c3Main t px o2 h1 (wfFields_mem pk px kvs hwf hp) (ho2.trans h3) hv2
        obtain ⟨hF, hS⟩ := rDict_deepEq (fun x => restrict t x ⟨false, false, false⟩) kvs hnd hpt
        refine ⟨.obj (rDict (fun x => restrict t x ⟨false, false, false⟩) kvs), rfl, ?_⟩
        show (deepEqFields (rDict (fun x => restrict t x ⟨false, false, false⟩) kvs) kvs &&
              keysSubset kvs (rDict (fun x => restrict t x ⟨false, false, false⟩) kvs)) = true
        rw [hF, hS]
        rfl
      all_goals exact List.noConfusion h4
  | .object entries => fun v o h1 h2 h3 h4 => by
      cases v
      case obj kvs =>
        obtain ⟨hvf, hall⟩ := validate_object_nil entries kvs o h3 h4
        have hbw : (keysNodup kvs && wfFields kvs) = true := h2
        obtain ⟨hnd, hwf⟩ : keysNodup kvs = true ∧ wfFields kvs = true := by simpa using hbw
        have hpt := c3Fields entries kvs o h1 hwf h3 hvf
        refine ⟨.obj (rFields entries kvs ⟨false, false, false⟩), rfl, ?_⟩
        show (deepEqFields (rFields entries kvs ⟨false, false, false⟩) kvs &&
              keysSubset kvs (rFields entries kvs ⟨false, false, false⟩)) = true
        have hF : deepEqFields (rFields entries kvs ⟨false, false, false⟩) kvs = true := by
          apply rFields_deepEqFields kvs entries
          intro e he x hx w hw
          obtain ⟨w0, hw0, hd0⟩ := hpt e he x hx
          rw [hw0] at hw
          injection hw with hww
          rw [← hww]
          exact hd0
        have hS : keysSubset kvs (rFields entries kvs ⟨false, false, false⟩) = true := by
          apply keysSubset_of_hasKey
          intro p hp
          obtain ⟨pk, px⟩ := p
          have hdecl : hasEntry entries pk = true := List.all_eq_true.mp hall (pk, px) hp
          obtain ⟨t0, ht0⟩ : ∃ t0, lookupStr entries pk = some t0 :=
            Option.isSome_iff_exists.mp hdecl
          apply rFields_hasKey kvs pk entries
          · intro e he x hx
            obtain ⟨w, hw, _⟩ := hpt e he x hx
            exact ⟨w, hw⟩
          · exact ⟨t0, lookupStr_mem pk t0 entries ht0⟩
          · exact hasKey_of_mem pk px kvs hp
        rw [hF, hS]
        rfl
      all_goals exact List.noConfusion h4

/-- Field-loop counterpart of `c3Main`: every present declared field of
a cleanly validating object restricts to a deep-equal value. -/
theorem c3Fields : ∀ (entries : List (String × CSchema)) (kvs : List (String × Value)) (o : VOpts),
    fieldsOneofScalar entries = true → wfFields kvs = true → o.allowExtraFields = false →
    vFields entries o kvs = [] →
    ∀ e ∈ entries, ∀ x, lookupStr kvs e.1 = some x →
      ∃ w, restrict e.2 (some x) ⟨false, false, false⟩ = some w ∧ deepEq w x = true
  | [] => fun _ _ _ _ _ _ e he => absurd he (List.not_mem_nil e)
  | (k, t) :: rest => fun kvs o h1 h2 h3 h4 e he x hx => by
      have hb : (oneofScalarOnly t && fieldsOneofScalar rest) = true := h1
      obtain ⟨h1h, h1r⟩ : oneofScalarOnly t = true ∧ fieldsOneofScalar rest = true := by
        simpa using hb
      have h4' : ((match lookupStr kvs k with
                   | some x => validate t x { o with path := o.path ++ [.key k] }
                   | none => []) ++ vFields rest o kvs) = [] := h4
      obtain ⟨h4h, h4r⟩ := List.append_eq_nil.mp h4'
      rcases List.mem_cons.mp he with heq | hmem
      · subst heq
        have hx' : lookupStr kvs k = some x := hx
        rw [hx'] at h4h
        exact c3Main t x { o with path := o.path ++ [.key k] } h1h
          (wfFields_mem k x kvs h2 (lookupStr_mem k x kvs hx')) h3 h4h
      · exact c3Fields rest kvs o h1r h2 h3 h4r e hmem x hx

end

end Classic

namespace Classic

open Spartan (Value)

/-- C3: validate/restrict agreement holds on the scalar-`oneof`
fragment, not in general.  If every `oneof` node of the schema has only
scalar alternatives, then a (duplicate-key-free) value on which
`validate` reports no mismatches is mapped by `restrict` with the empty
options to a value deep-equal to the original.  The restriction on
`oneof` nodes is necessary: see the counterexample, in which `restrict`
answers a value that is not deep-equal to the conforming input. -/
theorem c3_validate_restrict_agreement (s : CSchema) (v : Value)
    (hso : oneofScalarOnly s = true) (hwf : wfValue v = true)
    (hval : validate s v ⟨[], false⟩ = []) :
    ∃ w, restrict s (some v) noOpts = some w ∧ deepEq w v = true :=
  c3Main s v ⟨[], false⟩ hso hwf rfl hval

/-- C3 counterexample: the unrestricted claim fails.  The value
`["x"]` conforms to `oneof [array integer, array string]` (its second
alternative), yet `restrict` scans the alternatives in order and the
first alternative already succeeds — `ArrayType.restrict` silently
drops the element that does not restrict — so the result is `[]`,
which is not deep-equal to `["x"]`. -/
theorem c3_restrict_not_identity :
    validate (.oneof [.array .integerT, .array .stringT]) (.arr [.str "x"]) ⟨[], false⟩ = [] ∧
    restrict (.oneof [.array .integerT, .array .stringT]) (some (.arr [.str "x"])) noOpts =
      some (.arr []) ∧
    deepEq (.arr []) (.arr [.str "x"]) = false :=
  ⟨rfl, rfl, rfl⟩

/-- Witness for C3 at a concrete input: the object schema
`{a: boolean}` and the conforming value `{a: true}`. -/
theorem c3_validate_restrict_agreement_witness :
    ∃ w, restrict (.object [("a", .booleanT)]) (some (.obj [("a", Value.bool true)])) noOpts =
        some w ∧ deepEq w (.obj [("a", Value.bool true)]) = true :=
  c3_validate_restrict_agreement (.object [("a", .booleanT)]) (.obj [("a", Value.bool true)])
    rfl rfl rfl

end Classic
